import Mathlib

/-!
Verification of the castenv normalization engine (src/castenv/__init__.py).

The development shallowly embeds the pure core of the library:
the scalar parsers (`_try_number`, `_parse_duration_to_seconds`,
`_parse_bytes`, `_try_json`), the interpolator (`_interpolate_env` /
`_expand_env_from_sources`), the value pipeline `normalize`, and the
structural walker `normalize_config`.

Modelling conventions:
* Python values flowing through the engine are the inductive `Value`
  (None / bool / int / float / str / list / dict).
* Python floats are modelled as exact rationals (`Rat`); the decimal
  literals, unit factors and divisions used by the engine are all exact
  decimal arithmetic, so the model agrees with the code except for
  IEEE-754 rounding at extreme precision, which is outside this model.
  Since the library ops on `Rat` are irreducible, we use kernel-reducible
  wrappers built on `Rat.divInt` (proved equal to the field operations).
* Character classes (`\d`, `\s`, upper/lower case) are modelled at ASCII
  scope; all sentinel and unit tokens of the engine are ASCII.
* External effects are parameters: `env` models `os.environ.get`,
  `provider` models the layered decouple/dotenv/os lookup of
  `_expand_env_from_sources`, and `eu` models `os.path.expanduser`
  applied when the source's `startswith(("~/", "~\\"))` guard fires.
* The only exception the engine raises itself is `ValueError`
  (enum violation, or `float()` on a base-prefixed numeral in the
  percent stage); both are modelled by `PyErr`.
-/

namespace Castenv

/-- Python values produced by the engine: the tagged union
None / bool / int / float / str / list / dict. -/
inductive Value where
  | null
  | bool (b : Bool)
  | int (n : Int)
  | float (q : Rat)
  | str (s : String)
  | list (xs : List Value)
  | dict (kvs : List (String × Value))
deriving Repr

/-- Errors raised by `normalize`: the enum-violation `ValueError`
(carrying the offending value and the allow-set, as the source message
does) and other `ValueError`s (the `float()` failure in the percent
stage; also the unreachable fuel sentinel). -/
inductive PyErr where
  | enumErr (offending : Value) (choices : List String)
  | valueErr (msg : String)
deriving Repr

/-! ### Kernel-reducible rational arithmetic

`Rat.add`/`Rat.mul` are `@[irreducible]` in the library, which blocks
`decide`/`rfl` evaluation; the engine's float arithmetic is therefore
expressed through `Rat.divInt`, and proved equal to the field ops. -/

def qAdd (a b : Rat) : Rat :=
  Rat.divInt (a.num * (b.den : Int) + b.num * (a.den : Int)) ((a.den : Int) * (b.den : Int))

def qMul (a b : Rat) : Rat :=
  Rat.divInt (a.num * b.num) ((a.den : Int) * (b.den : Int))

/-- Division of a rational by a positive integer constant. -/
def qDivN (a : Rat) (n : Nat) : Rat :=
  Rat.divInt a.num ((a.den : Int) * (n : Int))

def qOfInt (n : Int) : Rat := Rat.divInt n 1

/-- Python `int()` applied to a float: truncation toward zero. -/
def pyTrunc (q : Rat) : Int := q.num.tdiv q.den

theorem qAdd_eq (a b : Rat) : qAdd a b = a + b := by
  have ha : ((a.den : Int) : Rat) ≠ 0 := by
    exact_mod_cast (Int.natCast_ne_zero).mpr a.den_nz
  have hb : ((b.den : Int) : Rat) ≠ 0 := by
    exact_mod_cast (Int.natCast_ne_zero).mpr b.den_nz
  rw [qAdd, Rat.divInt_eq_div]
  push_cast
  conv_rhs => rw [← Rat.num_div_den a, ← Rat.num_div_den b]
  rw [div_add_div _ _ (by exact_mod_cast ha) (by exact_mod_cast hb)]
  ring_nf

theorem qMul_eq (a b : Rat) : qMul a b = a * b := by
  rw [qMul, Rat.divInt_eq_div]
  push_cast
  conv_rhs => rw [← Rat.num_div_den a, ← Rat.num_div_den b]
  rw [div_mul_div_comm]

theorem qDivN_eq (a : Rat) (n : Nat) : qDivN a n = a / (n : Rat) := by
  rw [qDivN, Rat.divInt_eq_div]
  push_cast
  conv_rhs => rw [← Rat.num_div_den a]
  rw [div_div]

theorem qOfInt_eq (n : Int) : qOfInt n = (n : Rat) := by
  rw [qOfInt, Rat.divInt_eq_div]
  simp

/-! ### ASCII character and string utilities (Python semantics) -/

/-- Python whitespace for `str.strip` and the regex class `\s`
(ASCII scope). -/
def pyWs (c : Char) : Bool :=
  c = ' ' || c = '\t' || c = '\n' || c = '\r' || c = '\x0b' || c = '\x0c'

/-- Strip `pyWs` from both ends: Python `str.strip()`. -/
def pyStripL (cs : List Char) : List Char :=
  ((cs.dropWhile pyWs).reverse.dropWhile pyWs).reverse

def pyStrip (s : String) : String := String.mk (pyStripL s.data)

/-- ASCII lower-casing of one character (Python `str.lower` at ASCII
scope). -/
def lowAscii (c : Char) : Char :=
  if 65 ≤ c.toNat ∧ c.toNat ≤ 90 then Char.ofNat (c.toNat + 32) else c

def pyLower (s : String) : String := String.mk (s.data.map lowAscii)

/-- `listStarts p cs` holds when `p` is a leading segment of `cs`. -/
def listStarts : List Char → List Char → Bool
  | [], _ => true
  | _ :: _, [] => false
  | a :: as, b :: bs => a = b && listStarts as bs

def strStarts (s pre : String) : Bool := listStarts pre.data s.data

def strEnds (s suf : String) : Bool := listStarts suf.data.reverse s.data.reverse

/-- Python substring containment `sep in s` (true for the empty
separator, as in Python). -/
def containsSubL (pat : List Char) : List Char → Bool
  | [] => listStarts pat []
  | c :: rest => listStarts pat (c :: rest) || containsSubL pat rest

def containsSub (s pat : String) : Bool := containsSubL pat.data s.data

/-- Python `str.split(sep)` for nonempty `sep`: left-to-right,
non-overlapping.  Fuelled; `fuel = length of the input` suffices since
each step consumes at least one character. -/
def splitL (sep : List Char) : Nat → List Char → List (List Char)
  | _, [] => [[]]
  | 0, cs => [cs]
  | n + 1, c :: rest =>
    if listStarts sep (c :: rest) then
      [] :: splitL sep n ((c :: rest).drop sep.length)
    else
      match splitL sep n rest with
      | [] => [[c]]
      | p :: ps => (c :: p) :: ps

def pySplit (s sep : String) : List String :=
  (splitL sep.data s.data.length s.data).map String.mk

/-- Python `str.replace(pat, rep)` for nonempty `pat`: left-to-right,
non-overlapping, replacements not rescanned.  Fuelled like `splitL`. -/
def replaceL (pat rep : List Char) : Nat → List Char → List Char
  | _, [] => []
  | 0, cs => cs
  | n + 1, c :: rest =>
    if listStarts pat (c :: rest) then
      rep ++ replaceL pat rep n ((c :: rest).drop pat.length)
    else
      c :: replaceL pat rep n rest

def pyReplace (s pat rep : String) : String :=
  String.mk (replaceL pat.data rep.data s.data.length s.data)

/-! ### The interpolator (`_ENV_VAR_PATTERN` with its `repl` policies)

One scanner serves both `_interpolate_env` (lookup = `os.environ.get`)
and `_expand_env_from_sources` (lookup = the layered
decouple/dotenv/os-environ composite of the source, abstracted as a
single `String → Option String` per the narrow provider interface).
Both substitute a found name by its raw value, a missing braced name
with a default by the literal default text, and a missing name without
a default by the empty string; substituted text is not rescanned
(`re.sub` replaces left to right in a single pass). -/

def idStart (c : Char) : Bool := c.isAlpha || c = '_'

def idCont (c : Char) : Bool := c.isAlphanum || c = '_'

/-- Parse `{NAME}` or `{NAME:-default}` (the text right after a `$`),
per the verbose regex: name `[A-Za-z_][A-Za-z0-9_]*`, default `[^}]*`. -/
def parseBraced : List Char → Option (String × Option String × List Char)
  | '\x7b' :: c :: cs =>
    if idStart c then
      let nm := String.mk (c :: cs.takeWhile idCont)
      match cs.dropWhile idCont with
      | '\x7d' :: r => some (nm, none, r)
      | ':' :: '-' :: r =>
        let dflt := String.mk (r.takeWhile (fun d => d != '\x7d'))
        match r.dropWhile (fun d => d != '\x7d') with
        | '\x7d' :: r2 => some (nm, some dflt, r2)
        | _ => none
      | _ => none
    else none
  | _ => none

/-- Parse a bare `$NAME` reference (the text right after the `$`). -/
def parseShort : List Char → Option (String × List Char)
  | c :: cs =>
    if idStart c then some (String.mk (c :: cs.takeWhile idCont), cs.dropWhile idCont)
    else none
  | [] => none

/-- The scanning loop of `re.sub`: try a match at each position, copy
one character on failure.  Fuelled; every step consumes at least one
character, so `fuel = length of the input` suffices and the zero-fuel
fallback (copy the rest verbatim) is never reached from `interpolateWith`. -/
def interpGo (lookup : String → Option String) : Nat → List Char → List Char
  | 0, cs => cs
  | _ + 1, [] => []
  | n + 1, '$' :: rest =>
    match parseBraced rest with
    | some (nm, dflt, r) => ((lookup nm).getD (dflt.getD "")).data ++ interpGo lookup n r
    | none =>
      match parseShort rest with
      | some (nm, r) => ((lookup nm).getD "").data ++ interpGo lookup n r
      | none => '$' :: interpGo lookup n rest
  | n + 1, c :: rest => c :: interpGo lookup n rest

def interpolateWith (lookup : String → Option String) (s : String) : String :=
  String.mk (interpGo lookup s.data.length s.data)

/-! ### Quote stripping and escape unescaping -/

def isQuoteChar (c : Char) : Bool := c = '"' || c = '\x27'

/-- `_strip_matching_quotes`: strip identical first/last quote
characters of a string of length at least 2. -/
def stripMatchingQuotes (s : String) : String × Bool :=
  match s.data with
  | [] => (s, false)
  | c :: cs =>
    match cs.getLast? with
    | none => (s, false)
    | some d => if c = d && isQuoteChar c then (String.mk cs.dropLast, true) else (s, false)

/-- The escape table of `_unescape_quoted`, in source (insertion)
order; each entry is applied as one full `str.replace` pass. -/
def escTable : List (String × String) :=
  [("\\\\", "\\"), ("\\\"", "\""), ("\\\x27", "\x27"), ("\\n", "\n"),
   ("\\r", "\r"), ("\\t", "\t"), ("\\b", "\x08"), ("\\f", "\x0c"), ("\\0", "\x00")]

def unescapeQuoted (s : String) : String :=
  escTable.foldl (fun acc kv => pyReplace acc kv.1 kv.2) s

/-! ### `_try_number` -/

def hexPre (s : String) : Bool := strStarts s "0x" || strStarts s "0X"

def binPre (s : String) : Bool := strStarts s "0b" || strStarts s "0B"

def octPre (s : String) : Bool := strStarts s "0o" || strStarts s "0O"

def hasBasePre (s : String) : Bool := hexPre s || binPre s || octPre s

def digitVal16 (c : Char) : Option Nat :=
  if c.isDigit then some (c.toNat - 48)
  else if 'a' ≤ c ∧ c ≤ 'f' then some (c.toNat - 87)
  else if 'A' ≤ c ∧ c ≤ 'F' then some (c.toNat - 55)
  else none

def digitVal2 (c : Char) : Option Nat :=
  if c = '0' then some 0 else if c = '1' then some 1 else none

def digitVal8 (c : Char) : Option Nat :=
  if '0' ≤ c ∧ c ≤ '7' then some (c.toNat - 48) else none

/-- Digit run of Python `int(s, base)` after the first digit:
single underscores allowed between digits, stops at the first
non-digit non-underscore character. -/
def basedGo (dv : Char → Option Nat) (base : Nat) : List Char → Nat → Option (Nat × List Char)
  | [], acc => some (acc, [])
  | '_' :: c :: cs, acc =>
    match dv c with
    | some d => basedGo dv base cs (acc * base + d)
    | none => none
  | ['_'], _ => none
  | c :: cs, acc =>
    match dv c with
    | some d => basedGo dv base cs (acc * base + d)
    | none => some (acc, c :: cs)

/-- Python `int(val, base)` applied to the text after a `0x`/`0b`/`0o`
prefix: one optional underscore directly after the prefix, at least one
digit, single underscores between digits, optional trailing whitespace. -/
def pyIntRadix (dv : Char → Option Nat) (base : Nat) (rest : List Char) : Option Nat :=
  let rest2 := match rest with | '_' :: t => t | t => t
  match rest2 with
  | c :: cs =>
    match dv c with
    | some d =>
      match basedGo dv base cs d with
      | some (v, rem) => if rem.all pyWs then some v else none
      | none => none
    | none => none
  | [] => none

def signSplit : List Char → Bool × List Char
  | [] => (false, [])
  | c :: cs =>
    if c = '+' then (false, cs)
    else if c = '-' then (true, cs)
    else (false, c :: cs)

def decDigitsVal (cs : List Char) : Nat :=
  cs.foldl (fun a c => a * 10 + (c.toNat - 48)) 0

/-- `re.fullmatch(r"[+-]?\d+", val)` (ASCII digits). -/
def intRe (cs : List Char) : Bool :=
  let r := (signSplit cs).2
  !r.isEmpty && r.all Char.isDigit

def pyIntDec (cs : List Char) : Int :=
  let (neg, r) := signSplit cs
  if neg then -(decDigitsVal r : Int) else (decDigitsVal r : Int)

def qNeg (q : Rat) : Rat := Rat.divInt (-q.num) q.den

def applySign (neg : Bool) (q : Rat) : Rat := if neg then qNeg q else q

/-- Exact value of the decimal numeral `d1.d2`. -/
def fracVal (d1 d2 : List Char) : Rat :=
  Rat.divInt (decDigitsVal (d1 ++ d2) : Int) ((10 : Int) ^ d2.length)

/-- Scale by a decimal exponent. -/
def scale10 (q : Rat) (e : Int) : Rat :=
  match e with
  | .ofNat k => qMul q (qOfInt ((10 : Int) ^ k))
  | .negSucc k => qDivN q (10 ^ (k + 1))

/-- The optional `[eE][+-]?\d+` suffix; must consume the whole rest. -/
def parseExp : List Char → Option Int
  | [] => some 0
  | e :: cs =>
    if e = 'e' || e = 'E' then
      let (neg, r) := signSplit cs
      if !r.isEmpty && r.all Char.isDigit then
        some (if neg then -(decDigitsVal r : Int) else (decDigitsVal r : Int))
      else none
    else none

/-- `re.fullmatch(r"[+-]?(?:\d+\.\d*|\.\d+|\d+)(?:[eE][+-]?\d+)?", val)`
together with the exact value `float(val)` denotes. -/
def floatLexVal (cs : List Char) : Option Rat :=
  let (neg, r) := signSplit cs
  let d1 := r.takeWhile Char.isDigit
  let r1 := r.dropWhile Char.isDigit
  match d1, r1 with
  | [], '.' :: r2 =>
    let d2 := r2.takeWhile Char.isDigit
    if d2.isEmpty then none
    else (parseExp (r2.dropWhile Char.isDigit)).map fun e => applySign neg (scale10 (fracVal [] d2) e)
  | [], _ => none
  | _ :: _, '.' :: r2 =>
    let d2 := r2.takeWhile Char.isDigit
    (parseExp (r2.dropWhile Char.isDigit)).map fun e => applySign neg (scale10 (fracVal d1 d2) e)
  | d1c :: d1r, _ =>
    (parseExp r1).map fun e => applySign neg (scale10 (qOfInt (decDigitsVal (d1c :: d1r))) e)

/-- `_try_number`: `0x`/`0b`/`0o` prefixed integers (returning
immediately, even on failure), then a plain integer, then a float. -/
def tryNumber (val : String) : Option Value :=
  if hexPre val then (pyIntRadix digitVal16 16 (val.data.drop 2)).map fun n => .int n
  else if binPre val then (pyIntRadix digitVal2 2 (val.data.drop 2)).map fun n => .int n
  else if octPre val then (pyIntRadix digitVal8 8 (val.data.drop 2)).map fun n => .int n
  else if intRe val.data then some (.int (pyIntDec val.data))
  else (floatLexVal val.data).map fun q => .float q

/-! ### `_parse_duration_to_seconds`

The source iterates `_DURATION_PART.finditer` and demands that the
matches tile the string exactly (`m.start() == pos` at each step and
`pos == len(val)` at the end).  Since no alternative of the pattern can
start with a digit or a dot, the regex engine never backtracks into a
chosen number, and the alternation picks the first unit (in pattern
order) that prefixes the remaining text; the scan is therefore the
deterministic greedy tokenizer below.  A failure to read a token at the
current position means the next regex match (if any) starts later, which
the source rejects either via the gap check or the final coverage check. -/

/-- Unit factors in the alternation order of `_DURATION_PART`
(`ns|us|µs|ms|s|m|h|d|w`); `amount/1e9` etc. is `amount * factor`
exactly. -/
def durUnits : List (String × Rat) :=
  [("ns", Rat.divInt 1 1000000000), ("us", Rat.divInt 1 1000000),
   ("µs", Rat.divInt 1 1000000), ("ms", Rat.divInt 1 1000),
   ("s", 1), ("m", 60), ("h", 3600), ("d", 86400), ("w", 604800)]

/-- First unit of the alternation that prefixes the text. -/
def unitLex : List (String × Rat) → List Char → Option (Rat × List Char)
  | [], _ => none
  | (u, f) :: us, cs =>
    if listStarts u.data cs then some (f, cs.drop u.data.length)
    else unitLex us cs

/-- The `\d+(?:\.\d+)?` number of a duration token, with its exact value. -/
def numLex (cs : List Char) : Option (Rat × List Char) :=
  let d1 := cs.takeWhile Char.isDigit
  if d1.isEmpty then none
  else
    match cs.dropWhile Char.isDigit with
    | [] => some (qOfInt (decDigitsVal d1), [])
    | c2 :: r2 =>
      if c2 = '.' then
        let d2 := r2.takeWhile Char.isDigit
        if d2.isEmpty then some (qOfInt (decDigitsVal d1), c2 :: r2)
        else some (fracVal d1 d2, r2.dropWhile Char.isDigit)
      else some (qOfInt (decDigitsVal d1), c2 :: r2)

/-- One `<number><unit>` token with its value in seconds. -/
def durToken (cs : List Char) : Option (Rat × List Char) :=
  match numLex cs with
  | some (a, r) =>
    match unitLex durUnits r with
    | some (f, r2) => some (qMul a f, r2)
    | none => none
  | none => none

/-- Greedy tiling of the whole string by duration tokens.  Fuelled;
each token consumes at least one character so `fuel = length` suffices. -/
def durTileF : Nat → List Char → Option Rat
  | _, [] => some 0
  | 0, _ :: _ => none
  | n + 1, c :: rest =>
    match durToken (c :: rest) with
    | some (v, r2) => (durTileF n r2).map fun t => qAdd v t
    | none => none

def parseDurationToSeconds (s : String) : Option Rat :=
  durTileF s.data.length s.data

/-! ### `_parse_bytes` -/

/-- `_SIZE_UNITS_IEC` (powers of 1024). -/
def sizeUnitsIEC : List (String × Int) :=
  [("b", 1), ("k", 1024), ("kb", 1024), ("kib", 1024),
   ("m", 1024 ^ 2), ("mb", 1024 ^ 2), ("mib", 1024 ^ 2),
   ("g", 1024 ^ 3), ("gb", 1024 ^ 3), ("gib", 1024 ^ 3),
   ("t", 1024 ^ 4), ("tb", 1024 ^ 4), ("tib", 1024 ^ 4)]

/-- `_SIZE_UNITS_SI` (powers of 1000, keyed `<unit>_si`). -/
def sizeUnitsSI : List (String × Int) :=
  [("kb_si", 1000), ("mb_si", 1000 ^ 2), ("gb_si", 1000 ^ 3), ("tb_si", 1000 ^ 4)]

def lookupStr : List (String × Int) → String → Option Int
  | [], _ => none
  | (k, v) :: tl, u => if u = k then some v else lookupStr tl u

def hasUpper (s : String) : Bool := s.data.any Char.isUpper

/-- The part of the `_parse_bytes` regex after the optional sign:
`\d+(?:\.\d+)?` then `\s*`, an optional alphabetic unit, `\s*`, and
the end of the string. -/
def bytesTail (neg : Bool) (cs : List Char) : Option (Rat × String) :=
  let d1 := cs.takeWhile Char.isDigit
  if d1.isEmpty then none
  else
    let afterNum : Rat × List Char :=
      match cs.dropWhile Char.isDigit with
      | [] => (qOfInt (decDigitsVal d1), [])
      | c2 :: r2 =>
        if c2 = '.' then
          let d2 := r2.takeWhile Char.isDigit
          if d2.isEmpty then (qOfInt (decDigitsVal d1), c2 :: r2)
          else (fracVal d1 d2, r2.dropWhile Char.isDigit)
        else (qOfInt (decDigitsVal d1), c2 :: r2)
    let r3 := afterNum.2.dropWhile pyWs
    let unit := r3.takeWhile Char.isAlpha
    let r4 := (r3.dropWhile Char.isAlpha).dropWhile pyWs
    if r4.isEmpty then some (applySign neg afterNum.1, String.mk unit) else none

/-- The lexical part of `_parse_bytes`:
`re.fullmatch(r"\s*(?P<num>[+-]?\d+(?:\.\d+)?)\s*(?P<unit>[A-Za-z]+)?\s*", val)`,
returning the exact numeric value and the (possibly empty) unit group. -/
def bytesLex (val : String) : Option (Rat × String) :=
  let cs0 := val.data.dropWhile pyWs
  let sp := signSplit cs0
  bytesTail sp.1 sp.2

/-- `_parse_bytes`: missing unit defaults to `"b"`; SI family (powers of
1000) exactly when the lowercased unit is kb/mb/gb/tb and the token as
written contains an uppercase letter, else the IEC family; result is
`int(num * factor)` (truncation).  The source's
`.get(unit) or .get(unit.lower())` is the `Option` fallback below
(no table value is falsy, and `unit` is already lowercased). -/
def parseBytes (val : String) : Option Int :=
  match bytesLex val with
  | none => none
  | some (num, unitGroup) =>
    let unitRaw := if unitGroup = "" then "b" else unitGroup
    let unit := pyLower unitRaw
    let factor : Option Int :=
      if (unit = "kb" ∨ unit = "mb" ∨ unit = "gb" ∨ unit = "tb") ∧ hasUpper unitRaw then
        lookupStr sizeUnitsSI (unit ++ "_si")
      else
        match lookupStr sizeUnitsIEC unit with
        | some f => some f
        | none => lookupStr sizeUnitsIEC (pyLower unit)
    match factor with
    | some f => some (pyTrunc (qMul num (qOfInt f)))
    | none => none

/-! ### `_try_json`

Modelled from the spec: the source delegates to Python's stdlib
`json.loads` (an external collaborator); §4.2 specifies it as "attempts
a general JSON parse; matches only when parsing succeeds, producing
native null/bool/number/string/array/object equivalents".  We model
strict JSON per that sentence (Python's nonstandard `NaN`/`Infinity`
extension and lone-surrogate escapes are outside the model; duplicate
object keys follow Python's last-wins dict insertion). -/

def jsonWsChar (c : Char) : Bool := c = ' ' || c = '\t' || c = '\n' || c = '\r'

def skipJsonWs (cs : List Char) : List Char := cs.dropWhile jsonWsChar

def hexQuad : List Char → Option (Nat × List Char)
  | a :: b :: c :: d :: r =>
    match digitVal16 a, digitVal16 b, digitVal16 c, digitVal16 d with
    | some x, some y, some z, some w => some (((x * 16 + y) * 16 + z) * 16 + w, r)
    | _, _, _, _ => none
  | _ => none

/-- Body of a JSON string after the opening quote. -/
def jsonStrGo : Nat → List Char → List Char → Option (String × List Char)
  | 0, _, _ => none
  | n + 1, acc, cs =>
    match cs with
    | [] => none
    | '"' :: r => some (String.mk acc.reverse, r)
    | '\\' :: e :: r =>
      match e with
      | '"' => jsonStrGo n ('"' :: acc) r
      | '\\' => jsonStrGo n ('\\' :: acc) r
      | '/' => jsonStrGo n ('/' :: acc) r
      | 'b' => jsonStrGo n ('\x08' :: acc) r
      | 'f' => jsonStrGo n ('\x0c' :: acc) r
      | 'n' => jsonStrGo n ('\n' :: acc) r
      | 'r' => jsonStrGo n ('\r' :: acc) r
      | 't' => jsonStrGo n ('\t' :: acc) r
      | 'u' =>
        match hexQuad r with
        | some (k, r2) =>
          if 0xD800 ≤ k ∧ k ≤ 0xDBFF then
            match r2 with
            | '\\' :: 'u' :: r3 =>
              match hexQuad r3 with
              | some (k2, r4) =>
                if 0xDC00 ≤ k2 ∧ k2 ≤ 0xDFFF then
                  jsonStrGo n (Char.ofNat (0x10000 + (k - 0xD800) * 0x400 + (k2 - 0xDC00)) :: acc) r4
                else none
              | none => none
            | _ => none
          else if 0xDC00 ≤ k ∧ k ≤ 0xDFFF then none
          else jsonStrGo n (Char.ofNat k :: acc) r2
        | none => none
      | _ => none
    | c :: r => if c.toNat < 0x20 then none else jsonStrGo n (c :: acc) r

/-- JSON number exponent suffix (optional). -/
def jsonExpLex : List Char → Option (Option Int × List Char)
  | [] => some (none, [])
  | e :: cs =>
    if e = 'e' || e = 'E' then
      let sp : Bool × List Char :=
        match cs with
        | '+' :: t => (false, t)
        | '-' :: t => (true, t)
        | t => (false, t)
      let ds := sp.2.takeWhile Char.isDigit
      if ds.isEmpty then none
      else
        some (some (if sp.1 then -(decDigitsVal ds : Int) else (decDigitsVal ds : Int)),
          sp.2.dropWhile Char.isDigit)
    else some (none, e :: cs)

def jsonNumVal (neg : Bool) (ip frac : List Char) (e : Option Int) : Value :=
  match frac, e with
  | [], none => .int (if neg then -(decDigitsVal ip : Int) else (decDigitsVal ip : Int))
  | _, _ => .float (applySign neg (scale10 (fracVal ip frac) (e.getD 0)))

/-- JSON number token: `-?(0|[1-9][0-9]*)(\.[0-9]+)?([eE][+-]?[0-9]+)?`;
an integer literal yields a Python `int`, otherwise a `float`. -/
def jsonNumLex (cs : List Char) : Option (Value × List Char) :=
  let sp : Bool × List Char :=
    match cs with
    | '-' :: t => (true, t)
    | t => (false, t)
  let ip := sp.2.takeWhile Char.isDigit
  match ip with
  | [] => none
  | '0' :: _ :: _ => none
  | _ =>
    let r1 := sp.2.dropWhile Char.isDigit
    match r1 with
    | '.' :: r2 =>
      let frac := r2.takeWhile Char.isDigit
      if frac.isEmpty then none
      else
        match jsonExpLex (r2.dropWhile Char.isDigit) with
        | some (e, r3) => some (jsonNumVal sp.1 ip frac e, r3)
        | none => none
    | _ =>
      match jsonExpLex r1 with
      | some (e, r3) => some (jsonNumVal sp.1 ip [] e, r3)
      | none => none

/-- Insert into a Python dict: replace in place or append. -/
def dictInsert : List (String × Value) → String → Value → List (String × Value)
  | [], k, v => [(k, v)]
  | (k0, v0) :: tl, k, v =>
    if k0 = k then (k0, v) :: tl else (k0, v0) :: dictInsert tl k v

def dictFromPairs (ps : List (String × Value)) : List (String × Value) :=
  ps.foldl (fun acc kv => dictInsert acc kv.1 kv.2) []

mutual

def jsonVal : Nat → List Char → Option (Value × List Char)
  | 0, _ => none
  | n + 1, cs =>
    match skipJsonWs cs with
    | 'n' :: 'u' :: 'l' :: 'l' :: r => some (.null, r)
    | 't' :: 'r' :: 'u' :: 'e' :: r => some (.bool true, r)
    | 'f' :: 'a' :: 'l' :: 's' :: 'e' :: r => some (.bool false, r)
    | '"' :: r => (jsonStrGo (r.length + 1) [] r).map fun p => (.str p.1, p.2)
    | '[' :: r =>
      match skipJsonWs r with
      | ']' :: r2 => some (.list [], r2)
      | r2 => (jsonItems n r2).map fun p => (.list p.1, p.2)
    | '\x7b' :: r =>
      match skipJsonWs r with
      | '\x7d' :: r2 => some (.dict [], r2)
      | r2 => (jsonMembers n r2).map fun p => (.dict (dictFromPairs p.1), p.2)
    | r => jsonNumLex r

def jsonItems : Nat → List Char → Option (List Value × List Char)
  | 0, _ => none
  | n + 1, cs =>
    match jsonVal n cs with
    | none => none
    | some (v, r) =>
      match skipJsonWs r with
      | ',' :: r2 => (jsonItems n r2).map fun p => (v :: p.1, p.2)
      | ']' :: r2 => some ([v], r2)
      | _ => none

def jsonMembers : Nat → List Char → Option (List (String × Value) × List Char)
  | 0, _ => none
  | n + 1, cs =>
    match skipJsonWs cs with
    | '"' :: r =>
      match jsonStrGo (r.length + 1) [] r with
      | none => none
      | some (k, r2) =>
        match skipJsonWs r2 with
        | ':' :: r3 =>
          match jsonVal n r3 with
          | none => none
          | some (v, r4) =>
            match skipJsonWs r4 with
            | ',' :: r5 => (jsonMembers n r5).map fun p => ((k, v) :: p.1, p.2)
            | '\x7d' :: r5 => some ([(k, v)], r5)
            | _ => none
        | _ => none
    | _ => none

end

def tryJson (s : String) : Option Value :=
  match jsonVal (s.data.length + 1) s.data with
  | some (v, r) => if (skipJsonWs r).isEmpty then some v else none
  | none => none

/-! ### Python `str()` / `repr()` of engine values (for the enum check) -/

def stripTrailZeros (cs : List Char) : List Char :=
  (cs.reverse.dropWhile (fun c => c = '0')).reverse

def findScale (den : Nat) : Nat → Nat → Option Nat
  | 0, _ => none
  | fuel + 1, k => if 10 ^ k % den = 0 then some k else findScale den fuel (k + 1)

/-- `str(float)` for the exact decimal values the engine produces
(Python's shortest-roundtrip repr and scientific-notation switch for
extreme magnitudes are outside the model). -/
def floatRepr (q : Rat) : String :=
  match findScale q.den 80 0 with
  | some k =>
    let scaled := q.num.natAbs * 10 ^ k / q.den
    let ip := scaled / 10 ^ k
    let fp := scaled % 10 ^ k
    let fpRaw := Nat.repr fp
    let fpPad := String.mk (List.replicate (k - fpRaw.length) '0') ++ fpRaw
    let frac := String.mk (stripTrailZeros fpPad.data)
    (if q.num < 0 then "-" else "") ++ Nat.repr ip ++ "." ++ (if frac = "" then "0" else frac)
  | none => (if q.num < 0 then "-" else "") ++ Nat.repr q.num.natAbs ++ "/" ++ Nat.repr q.den

mutual

/-- Python `repr` of a value (string escaping corners aside): used for
elements inside `str(list)` / `str(dict)`. -/
def pyRepr : Value → String
  | .null => "None"
  | .bool b => if b then "True" else "False"
  | .int n => Int.repr n
  | .float q => floatRepr q
  | .str s => "\x27" ++ s ++ "\x27"
  | .list xs => "[" ++ String.intercalate ", " (pyReprList xs) ++ "]"
  | .dict kvs => "\x7b" ++ String.intercalate ", " (pyReprPairs kvs) ++ "\x7d"

def pyReprList : List Value → List String
  | [] => []
  | v :: tl => pyRepr v :: pyReprList tl

def pyReprPairs : List (String × Value) → List String
  | [] => []
  | (k, v) :: tl => ("\x27" ++ k ++ "\x27: " ++ pyRepr v) :: pyReprPairs tl

end

/-- Python `str(result)` as used by the enum check. -/
def pyStr : Value → String
  | .str s => s
  | v => pyRepr v

/-! ### The `normalize` pipeline -/

/-- The keyword options of `normalize`, with their source defaults. -/
structure Opts where
  coerce_empty_to_none : Bool := true
  coerce_null_strings : Bool := true
  parse_booleans : Bool := true
  parse_numbers : Bool := true
  parse_json : Bool := true
  parse_lists : Bool := true
  list_separators : List String := [","]
  strip_quotes : Bool := true
  unescape_in_quotes : Bool := true
  interpolate_env : Bool := true
  expand_user : Bool := true
  parse_duration : Bool := true
  parse_bytesize : Bool := true
  percent_mode : String := "none"
  lowercase_strings : Bool := false
  enum : Option (List String) := none

def defaultOpts : Opts := {}

def nullSentinels : List String := ["null", "none", "nil", "undefined"]

def trueSentinels : List String := ["true", "yes", "y", "on", "1"]

def falseSentinels : List String := ["false", "no", "n", "off", "0"]

/-- The post-pipeline lowercasing step (applies to string results only). -/
def lowerStep (o : Opts) : Value → Value
  | .str s => if o.lowercase_strings then .str (pyLower s) else .str s
  | v => v

/-- Membership test of the enum check: the value itself for strings,
`str(result)` otherwise. -/
def enumMember (choices : List String) : Value → Bool
  | .str r => choices.contains r
  | v => choices.contains (pyStr v)

/-- The enum check (source lines 313-322): skipped when no allow-set is
configured or the result is `None`; otherwise a `ValueError` carrying
the offending value and the allow-set. -/
def enumCheck (e : Option (List String)) (v : Value) : Except PyErr Value :=
  match e with
  | none => .ok v
  | some choices =>
    match v with
    | .null => .ok .null
    | v => if enumMember choices v then .ok v else .error (.enumErr v choices)

/-- The percent branch: `num_str = s[:-1].strip()`; when `_try_number`
accepts, the source calls `float(num_str)`, which raises `ValueError`
for base-prefixed numerals (`0x…`/`0b…`/`0o…`) and otherwise yields the
decimal value. -/
def percentStage (pm : String) (s : String) : Except PyErr (Option Value) :=
  let ns := pyStrip (String.mk s.data.dropLast)
  match tryNumber ns with
  | some nv =>
    if hasBasePre ns then .error (.valueErr "could not convert string to float")
    else
      let q : Rat := match nv with | .int n => qOfInt n | .float x => x | _ => 0
      .ok (some (.float (if pm = "fraction" then qDivN q 100 else q)))
  | none => .ok none

/-- The null-sentinel / boolean / percent `elif` chain. -/
def sentinelStage (o : Opts) (s sl : String) : Except PyErr (Option Value) :=
  if o.coerce_null_strings && nullSentinels.contains sl then .ok (some .null)
  else if o.parse_booleans && (trueSentinels.contains sl || falseSentinels.contains sl) then
    .ok (some (.bool (trueSentinels.contains sl)))
  else if o.percent_mode != "none" && strEnds s "%" then percentStage o.percent_mode s
  else .ok none

/-- The duration / byte-size / number fallthrough. -/
def durBytesNumStage (o : Opts) (s : String) : Option Value :=
  match (if o.parse_duration then parseDurationToSeconds s else none) with
  | some d => some (.float d)
  | none =>
    match (if o.parse_bytesize then parseBytes s else none) with
    | some n => some (.int n)
    | none => if o.parse_numbers then tryNumber s else none

/-- The JSON stage (source lines 270-276): attempted only when the
working string starts with a brace or bracket or the value was
originally quoted; in the quoted case the parse reads
`value.strip()` — the original, still-quoted raw text. -/
def jsonStage (pj : Bool) (s rawStripped : String) (wasQ : Bool) : Option Value :=
  if pj && (strStarts s "\x7b" || strStarts s "[" || wasQ) then
    tryJson (if wasQ then rawStripped else s)
  else none

/-- List splitting (source lines 283-284): the first configured
separator contained in the string; Python's `if sep` treats the empty
separator (and `None`) as falsy, yielding the one-element split. -/
def splitParts (s : String) (seps : List String) : List String :=
  match seps.find? (fun sep => containsSub s sep) with
  | some sep => if sep = "" then [s] else (pySplit s sep).map pyStrip
  | none => [s]

/-- The options of the recursive per-part call: `parse_lists=False`,
`enum=None`; `list_separators` is not forwarded by the source, so the
inner call sees its default `(",")` (unobservable, as the inner list
branch is disabled). -/
def innerOpts (o : Opts) : Opts :=
  { o with parse_lists := false, enum := none, list_separators := [","] }

/-- The string pipeline of `normalize` (the big `else` branch), up to
but not including the lowercase and enum steps.  `recur` is the
recursive per-part call of the list branch. -/
def strCore (env : String → Option String) (eu : String → String) (o : Opts)
    (recur : String → Except PyErr Value) (v : String) : Except PyErr Value :=
  let s0 := pyStrip v
  let s1 := if o.interpolate_env && containsSub s0 "$" then interpolateWith env s0 else s0
  if s1 = "" then .ok (if o.coerce_empty_to_none then .null else .str "")
  else
    let pq := if o.strip_quotes then stripMatchingQuotes s1 else (s1, false)
    let wasQ := pq.2
    let s2 := if wasQ && o.unescape_in_quotes then unescapeQuoted pq.1 else pq.1
    let s3 := if o.expand_user && (strStarts s2 "~/" || strStarts s2 "~\\") then eu s2 else s2
    let sl := pyLower s3
    match sentinelStage o s3 sl with
    | .error e => .error e
    | .ok (some r) => .ok r
    | .ok none =>
      match durBytesNumStage o s3 with
      | some r => .ok r
      | none =>
        match jsonStage o.parse_json s3 (pyStrip v) wasQ with
        | some r => .ok r
        | none =>
          if o.parse_lists && o.list_separators.any (fun sep => containsSub s3 sep) then
            ((splitParts s3 o.list_separators).mapM recur).map fun vs => .list vs
          else .ok (.str s3)

/-- One level of `normalize`: `None` and string inputs go through the
pipeline followed by the lowercase and enum steps; any other input is
returned unchanged immediately (before those steps). -/
def normStep (env : String → Option String) (eu : String → String) (o : Opts)
    (recur : String → Except PyErr Value) : Value → Except PyErr Value
  | .null => enumCheck o.enum (lowerStep o .null)
  | .str v => ((strCore env eu o recur v).map (lowerStep o)).bind (enumCheck o.enum)
  | v => .ok v

/-- `normalize` with explicit recursion fuel.  The only self-recursive
call is the list branch, whose per-part options disable `parse_lists`,
so the zero-fuel `recur` (which is never invoked when `parse_lists` is
false) is unreachable from `normalize`; see `normalize_fuel_irrelevant`. -/
def normalizeAux (env : String → Option String) (eu : String → String) :
    Nat → Opts → Value → Except PyErr Value
  | 0, o, v => normStep env eu o (fun _ => .error (.valueErr "recursion")) v
  | n + 1, o, v => normStep env eu o (fun p => normalizeAux env eu n (innerOpts o) (.str p)) v

/-- The `normalize` entry point. -/
def normalize (env : String → Option String) (eu : String → String)
    (o : Opts) (v : Value) : Except PyErr Value :=
  normalizeAux env eu 1 o v

mutual

/-- `normalize_config`: dicts are rebuilt value-wise (keys untouched),
lists element-wise; strings are expanded through the layered provider
and then normalized; anything else is returned as-is. -/
def normalizeConfigV (provider env : String → Option String) (eu : String → String)
    (o : Opts) : Value → Except PyErr Value
  | .dict kvs => (normalizeConfigPairs provider env eu o kvs).map fun l => .dict l
  | .list xs => (normalizeConfigList provider env eu o xs).map fun l => .list l
  | .str s => normalize env eu o (.str (interpolateWith provider s))
  | v => .ok v

def normalizeConfigList (provider env : String → Option String) (eu : String → String)
    (o : Opts) : List Value → Except PyErr (List Value)
  | [] => .ok []
  | x :: xs =>
    match normalizeConfigV provider env eu o x with
    | .error e => .error e
    | .ok y => (normalizeConfigList provider env eu o xs).map fun ys => y :: ys

def normalizeConfigPairs (provider env : String → Option String) (eu : String → String)
    (o : Opts) : List (String × Value) → Except PyErr (List (String × Value))
  | [] => .ok []
  | (k, v) :: tl =>
    match normalizeConfigV provider env eu o v with
    | .error e => .error e
    | .ok y => (normalizeConfigPairs provider env eu o tl).map fun ys => (k, y) :: ys

end

def normalizeConfig (provider env : String → Option String) (eu : String → String)
    (o : Opts) (v : Value) : Except PyErr Value :=
  normalizeConfigV provider env eu o v

/-! ### Basic pipeline lemmas -/

theorem innerOpts_parse_lists (o : Opts) : (innerOpts o).parse_lists = false := rfl

theorem innerOpts_enum (o : Opts) : (innerOpts o).enum = none := rfl

/-- When list splitting is disabled the pipeline never consults the
recursive call. -/
theorem normStep_recur_irrel (env : String → Option String) (eu : String → String)
    (o : Opts) (h : o.parse_lists = false) (r₁ r₂ : String → Except PyErr Value)
    (v : Value) : normStep env eu o r₁ v = normStep env eu o r₂ v := by
  cases v with
  | str s =>
    unfold normStep strCore
    rw [h]
    simp
  | null => rfl
  | bool b => rfl
  | int n => rfl
  | float q => rfl
  | list xs => rfl
  | dict kvs => rfl

/-- C6: for every non-string, non-None input value and every
combination of options, `normalize` returns that input unchanged. -/
theorem C6_nonstring_passthrough :
    ∀ (env : String → Option String) (eu : String → String) (o : Opts) (v : Value),
      v ≠ .null → (∀ s, v ≠ .str s) → normalize env eu o v = .ok v := by
  intro env eu o v hnull hstr
  cases v with
  | null => exact absurd rfl hnull
  | str s => exact absurd rfl (hstr s)
  | bool b => rfl
  | int n => rfl
  | float q => rfl
  | list xs => rfl
  | dict kvs => rfl

theorem C6_witness :
    (Value.int 42 ≠ Value.null) ∧ (∀ s, Value.int 42 ≠ Value.str s) ∧
      normalize (fun _ => none) id { defaultOpts with enum := some ["x"] } (.int 42) =
        .ok (.int 42) :=
  ⟨nofun, fun _ => nofun,
    C6_nonstring_passthrough (fun _ => none) id { defaultOpts with enum := some ["x"] }
      (.int 42) nofun (fun _ => nofun)⟩

/-- C8: `normalize` terminates on every input because the only
self-recursive call is the list branch, which runs the per-part calls
with `parse_lists := false` (and `enum := none`): any recursion fuel
beyond one level yields the same result as `normalize` itself. -/
theorem C8_recursion_depth_one :
    ∀ (env : String → Option String) (eu : String → String) (n : Nat) (o : Opts) (v : Value),
      (innerOpts o).parse_lists = false ∧ (innerOpts o).enum = none ∧
      normalizeAux env eu (n + 1) o v = normalize env eu o v := by
  intro env eu n o v
  refine ⟨rfl, rfl, ?_⟩
  show normalizeAux env eu (n + 1) o v = normalizeAux env eu 1 o v
  cases n with
  | zero => rfl
  | succ m =>
    show normStep env eu o (fun p => normalizeAux env eu (m + 1) (innerOpts o) (.str p)) v
        = normStep env eu o (fun p => normalizeAux env eu 0 (innerOpts o) (.str p)) v
    have hin : (fun p => normalizeAux env eu (m + 1) (innerOpts o) (.str p))
        = fun p => normalizeAux env eu 0 (innerOpts o) (.str p) := by
      funext p
      show normStep env eu (innerOpts o)
          (fun q => normalizeAux env eu m (innerOpts (innerOpts o)) (.str q)) (.str p)
        = normStep env eu (innerOpts o) (fun _ => .error (.valueErr "recursion")) (.str p)
      exact normStep_recur_irrel env eu (innerOpts o) rfl _ _ _
    rw [hin]

/-- A quote-free, dollar-free, tilde-free, lowercase boolean sentinel
token resolves through the boolean stage of the pipeline. -/
theorem normalize_boolSentinelCase (env : String → Option String) (eu : String → String)
    (o : Opts) (s lit : String) (b : Bool)
    (h : pyStrip s = lit)
    (hne : ¬ (lit = ""))
    (hdol : containsSub lit "$" = false)
    (hq : stripMatchingQuotes lit = (lit, false))
    (ht1 : strStarts lit "~/" = false)
    (ht2 : strStarts lit "~\\" = false)
    (hlow : pyLower lit = lit)
    (hnull : lit ∉ nullSentinels)
    (hbmem : lit ∈ trueSentinels ∨ lit ∈ falseSentinels)
    (htrue : decide (lit ∈ trueSentinels) = b)
    (hpb : o.parse_booleans = true) :
    normalize env eu o (.str s) = enumCheck o.enum (.bool b) := by
  have e1 : normalize env eu o (.str s)
      = ((strCore env eu o (fun p => normalizeAux env eu 0 (innerOpts o) (.str p)) s).map
          (lowerStep o)).bind (enumCheck o.enum) := rfl
  rw [e1]
  unfold strCore sentinelStage
  rw [h]
  simp [hne, hdol, hq, ht1, ht2, hlow, hnull, hbmem, htrue, hpb, lowerStep, Except.map,
    Except.bind]
  have hcond : b = true ∨ lit ∈ falseSentinels := by
    rcases hbmem with hm | hm
    · left
      rw [← htrue]
      simp [hm]
    · right
      exact hm
  rw [if_pos hcond]

/-- C1: an input whose trimmed form is `"1"` (resp. `"0"`) resolves in
the boolean stage when `parse_booleans` is enabled — the pipeline hands
the boolean `true` (resp. `false`), never the integer `1`/`0`, to the
final enum step; with no enum configured `normalize` returns that
boolean. -/
theorem C1_bool_wins_over_int :
    ∀ (env : String → Option String) (eu : String → String) (o : Opts) (s : String),
      o.parse_booleans = true →
      (pyStrip s = "1" →
        normalize env eu o (.str s) = enumCheck o.enum (.bool true) ∧
        (o.enum = none → normalize env eu o (.str s) = .ok (.bool true))) ∧
      (pyStrip s = "0" →
        normalize env eu o (.str s) = enumCheck o.enum (.bool false) ∧
        (o.enum = none → normalize env eu o (.str s) = .ok (.bool false))) := by
  intro env eu o s hpb
  constructor
  · intro h
    have hmain := normalize_boolSentinelCase env eu o s "1" true h
      (by decide) rfl rfl rfl rfl rfl (by decide) (by decide) (by decide) hpb
    exact ⟨hmain, fun he => by rw [hmain, he]; rfl⟩
  · intro h
    have hmain := normalize_boolSentinelCase env eu o s "0" false h
      (by decide) rfl rfl rfl rfl rfl (by decide) (by decide) (by decide) hpb
    exact ⟨hmain, fun he => by rw [hmain, he]; rfl⟩

theorem C1_witness :
    defaultOpts.parse_booleans = true ∧ pyStrip " 1 " = "1" ∧ pyStrip "0" = "0" ∧
      normalize (fun _ => none) id defaultOpts (.str " 1 ") = .ok (.bool true) ∧
      normalize (fun _ => none) id defaultOpts (.str "0") = .ok (.bool false) :=
  ⟨rfl, rfl, rfl,
    ((C1_bool_wins_over_int (fun _ => none) id defaultOpts " 1 " rfl).1 rfl).2 rfl,
    ((C1_bool_wins_over_int (fun _ => none) id defaultOpts "0" rfl).2 rfl).2 rfl⟩

/-! ### Lower-casing is idempotent (needed for the byte-unit tables) -/

theorem char_toNat_ofNat_lower (n : Nat) (h1 : 97 ≤ n) (h2 : n ≤ 122) :
    (Char.ofNat n).toNat = n := by
  interval_cases n <;> decide

theorem lowAscii_not_upper (c : Char) :
    ¬ (65 ≤ (lowAscii c).toNat ∧ (lowAscii c).toNat ≤ 90) := by
  unfold lowAscii
  by_cases h : 65 ≤ c.toNat ∧ c.toNat ≤ 90
  · rw [if_pos h]
    rw [char_toNat_ofNat_lower (c.toNat + 32) (by omega) (by omega)]
    omega
  · rw [if_neg h]
    exact h

theorem lowAscii_idem (c : Char) : lowAscii (lowAscii c) = lowAscii c := by
  conv_lhs => rw [lowAscii]
  rw [if_neg (lowAscii_not_upper c)]

theorem pyLower_idem (s : String) : pyLower (pyLower s) = pyLower s := by
  unfold pyLower
  simp only [List.map_map]
  congr 1
  exact List.map_congr_left fun c _ => lowAscii_idem c

/-- Association lookup success yields list membership. -/
theorem lookupStr_mem : ∀ {tbl : List (String × Int)} {u : String} {f : Int},
    lookupStr tbl u = some f → (u, f) ∈ tbl := by
  intro tbl
  induction tbl with
  | nil => intro u f h; exact absurd h (by simp [lookupStr])
  | cons kv tl ih =>
    intro u f h
    obtain ⟨a, b⟩ := kv
    simp only [lookupStr] at h
    by_cases hk : u = a
    · subst hk
      rw [if_pos rfl] at h
      cases h
      exact List.mem_cons_self _ _
    · rw [if_neg hk] at h
      exact List.mem_cons_of_mem _ (ih h)

/-- An empty lookup environment (for concrete examples: no variable is
set). -/
def noEnv : String → Option String := fun _ => none

/-- The SI byte-unit family as the spec states it: powers of 1000 for
the spellings kb/mb/gb/tb. -/
def siSpecFactor (u : String) : Option Int :=
  if u = "kb" then some 1000
  else if u = "mb" then some 1000000
  else if u = "gb" then some 1000000000
  else if u = "tb" then some 1000000000000
  else none

/-- The IEC byte-unit family as the spec states it: powers of 1024 for
b, k/kb/kib, m/mb/mib, g/gb/gib, t/tb/tib. -/
def iecSpecFactor (u : String) : Option Int :=
  if u = "b" then some 1
  else if u = "k" then some 1024
  else if u = "kb" then some 1024
  else if u = "kib" then some 1024
  else if u = "m" then some 1048576
  else if u = "mb" then some 1048576
  else if u = "mib" then some 1048576
  else if u = "g" then some 1073741824
  else if u = "gb" then some 1073741824
  else if u = "gib" then some 1073741824
  else if u = "t" then some 1099511627776
  else if u = "tb" then some 1099511627776
  else if u = "tib" then some 1099511627776
  else none

/-- The source's IEC table lookup agrees with the spec's table. -/
theorem iec_tbl_eq (u : String) : lookupStr sizeUnitsIEC u = iecSpecFactor u := rfl

/-- C3: the byte-size parser picks the SI (powers of 1000) family
exactly when the lowercased unit is one of kb/mb/gb/tb and the token as
written contains an uppercase letter; every other matching case uses
the IEC (powers of 1024) family, the result being the number times the
factor truncated to an integer; hence normalize("256MB") = 256000000
and normalize("1MiB") = 1048576. -/
theorem C3_byte_size_family :
    (∀ (s : String) (q : Rat) (u : String), bytesLex s = some (q, u) →
      ((pyLower (if u = "" then "b" else u) = "kb" ∨ pyLower (if u = "" then "b" else u) = "mb" ∨
          pyLower (if u = "" then "b" else u) = "gb" ∨ pyLower (if u = "" then "b" else u) = "tb") ∧
          hasUpper (if u = "" then "b" else u) = true →
        parseBytes s = (siSpecFactor (pyLower (if u = "" then "b" else u))).map
          fun f => pyTrunc (qMul q (qOfInt f))) ∧
      (¬ (((pyLower (if u = "" then "b" else u) = "kb" ∨ pyLower (if u = "" then "b" else u) = "mb" ∨
          pyLower (if u = "" then "b" else u) = "gb" ∨ pyLower (if u = "" then "b" else u) = "tb") ∧
          hasUpper (if u = "" then "b" else u) = true)) →
        parseBytes s = (iecSpecFactor (pyLower (if u = "" then "b" else u))).map
          fun f => pyTrunc (qMul q (qOfInt f)))) ∧
    normalize noEnv id defaultOpts (.str "256MB") = .ok (.int 256000000) ∧
    normalize noEnv id defaultOpts (.str "1MiB") = .ok (.int 1048576) := by
  refine ⟨?_, rfl, rfl⟩
  intro s q u hlex
  constructor
  · rintro ⟨hmem, hup⟩
    unfold parseBytes
    rw [hlex]
    simp only []
    rw [if_pos ⟨hmem, hup⟩]
    rcases hmem with h | h | h | h <;> rw [h] <;> rfl
  · intro hneg
    unfold parseBytes
    rw [hlex]
    simp only []
    rw [if_neg hneg]
    have hidem : pyLower (pyLower (if u = "" then "b" else u))
        = pyLower (if u = "" then "b" else u) := pyLower_idem _
    rw [hidem, ← iec_tbl_eq (pyLower (if u = "" then "b" else u))]
    cases hfind : lookupStr sizeUnitsIEC (pyLower (if u = "" then "b" else u)) with
    | some f => rfl
    | none => rfl

theorem C3_witness :
    bytesLex "256MB" = some (256, "MB") ∧ bytesLex "1MiB" = some (1, "MiB") ∧
      parseBytes "256MB" = (siSpecFactor (pyLower (if ("MB" : String) = "" then "b" else "MB"))).map
        (fun f => pyTrunc (qMul 256 (qOfInt f))) ∧
      parseBytes "1MiB" = (iecSpecFactor (pyLower (if ("MiB" : String) = "" then "b" else "MiB"))).map
        (fun f => pyTrunc (qMul 1 (qOfInt f))) :=
  ⟨by decide, by decide,
    ((C3_byte_size_family.1 "256MB" 256 "MB" (by decide)).1 (by decide)),
    ((C3_byte_size_family.1 "1MiB" 1 "MiB" (by decide)).2 (by decide))⟩

/-- C7: the JSON stage runs only when the working string starts with a
brace or bracket or the value was originally quoted, and the
originally-quoted case parses the original still-quoted raw text
(`value.strip()`), not the stripped/unescaped text: a quoted escaped
JSON object therefore resolves to the *string* written inside it, while
the same text unquoted resolves to a dict. -/
theorem C7_json_gating :
    (∀ (pj : Bool) (s raw : String) (q : Bool),
      (strStarts s "\x7b" = false → strStarts s "[" = false → q = false →
        jsonStage pj s raw q = none) ∧
      (q = true → pj = true → jsonStage pj s raw q = tryJson raw) ∧
      (q = false → pj = true → (strStarts s "\x7b" = true ∨ strStarts s "[" = true) →
        jsonStage pj s raw q = tryJson s)) ∧
    normalize noEnv id defaultOpts (.str "\"\x7b\\\"a\\\": 1\x7d\"") = .ok (.str "\x7b\"a\": 1\x7d") ∧
    normalize noEnv id defaultOpts (.str "\x7b\"a\": 1\x7d") = .ok (.dict [("a", .int 1)]) ∧
    tryJson "\x7b\"a\": 1\x7d" = some (.dict [("a", .int 1)]) := by
  refine ⟨?_, rfl, rfl, rfl⟩
  intro pj s raw q
  refine ⟨?_, ?_, ?_⟩
  · intro h1 h2 h3
    subst h3
    simp [jsonStage, h1, h2]
  · intro hq hpj
    subst hq
    subst hpj
    simp [jsonStage]
  · intro hq hpj hor
    subst hq
    subst hpj
    rcases hor with h | h <;> simp [jsonStage, h]

theorem C7_witness :
    jsonStage true "xyz" "\"q\"" false = none ∧
    jsonStage true "xyz" "\"q\"" true = tryJson "\"q\"" ∧
    jsonStage true "[1]" "zzz" false = tryJson "[1]" :=
  ⟨(C7_json_gating.1 true "xyz" "\"q\"" false).1 rfl rfl rfl,
   (C7_json_gating.1 true "xyz" "\"q\"" true).2.1 rfl rfl,
   (C7_json_gating.1 true "[1]" "zzz" false).2.2 rfl rfl (Or.inr rfl)⟩

/-! ### C9: `normalize_config` rebuild structure -/

theorem ncList_ok (provider env : String → Option String) (eu : String → String) (o : Opts) :
    ∀ {xs : List Value} {ys : List Value},
      normalizeConfigList provider env eu o xs = .ok ys →
      List.Forall₂ (fun x y => normalizeConfigV provider env eu o x = .ok y) xs ys := by
  intro xs
  induction xs with
  | nil =>
    intro ys h
    simp only [normalizeConfigList] at h
    cases h
    exact .nil
  | cons x xs ih =>
    intro ys h
    simp only [normalizeConfigList] at h
    cases hx : normalizeConfigV provider env eu o x with
    | error e => rw [hx] at h; exact Except.noConfusion h
    | ok y =>
      rw [hx] at h
      cases hrest : normalizeConfigList provider env eu o xs with
      | error e => rw [hrest] at h; exact Except.noConfusion h
      | ok ys0 =>
        rw [hrest] at h
        cases h
        exact .cons hx (ih hrest)

theorem ncPairs_ok (provider env : String → Option String) (eu : String → String) (o : Opts) :
    ∀ {kvs kvs2 : List (String × Value)},
      normalizeConfigPairs provider env eu o kvs = .ok kvs2 →
      List.Forall₂ (fun kv kv2 => kv2.1 = kv.1 ∧
        normalizeConfigV provider env eu o kv.2 = .ok kv2.2) kvs kvs2 := by
  intro kvs
  induction kvs with
  | nil =>
    intro kvs2 h
    simp only [normalizeConfigPairs] at h
    cases h
    exact .nil
  | cons kv tl ih =>
    intro kvs2 h
    obtain ⟨k, v⟩ := kv
    simp only [normalizeConfigPairs] at h
    cases hx : normalizeConfigV provider env eu o v with
    | error e => rw [hx] at h; exact Except.noConfusion h
    | ok y =>
      rw [hx] at h
      cases hrest : normalizeConfigPairs provider env eu o tl with
      | error e => rw [hrest] at h; exact Except.noConfusion h
      | ok ys0 =>
        rw [hrest] at h
        cases h
        exact .cons ⟨rfl, hx⟩ (ih hrest)

theorem forall₂_pairs_keys {P : String × Value → String × Value → Prop}
    {kvs kvs2 : List (String × Value)}
    (h : List.Forall₂ (fun kv kv2 => kv2.1 = kv.1 ∧ P kv kv2) kvs kvs2) :
    kvs2.map Prod.fst = kvs.map Prod.fst := by
  induction h with
  | nil => rfl
  | cons hh _ ih => simp [ih, hh.1]

/-- C9: `normalize_config` rebuilds dicts with every key unchanged and
each value recursively processed, rebuilds lists element-wise, and
returns any non-dict, non-list, non-string value unchanged. -/
theorem C9_config_frame :
    ∀ (provider env : String → Option String) (eu : String → String) (o : Opts),
      (∀ kvs r, normalizeConfig provider env eu o (.dict kvs) = .ok r →
        ∃ kvs2, r = .dict kvs2 ∧ kvs2.map Prod.fst = kvs.map Prod.fst ∧
          List.Forall₂ (fun kv kv2 => kv2.1 = kv.1 ∧
            normalizeConfig provider env eu o kv.2 = .ok kv2.2) kvs kvs2) ∧
      (∀ xs r, normalizeConfig provider env eu o (.list xs) = .ok r →
        ∃ ys, r = .list ys ∧
          List.Forall₂ (fun x y => normalizeConfig provider env eu o x = .ok y) xs ys) ∧
      (∀ v : Value, (∀ s, v ≠ .str s) → (∀ xs, v ≠ .list xs) → (∀ kvs, v ≠ .dict kvs) →
        normalizeConfig provider env eu o v = .ok v) := by
  intro provider env eu o
  refine ⟨?_, ?_, ?_⟩
  · intro kvs r h
    have h' : (normalizeConfigPairs provider env eu o kvs).map (fun l => Value.dict l) = .ok r := h
    cases hp : normalizeConfigPairs provider env eu o kvs with
    | error e => rw [hp] at h'; exact Except.noConfusion h'
    | ok l =>
      rw [hp] at h'
      cases h'
      exact ⟨l, rfl, forall₂_pairs_keys (ncPairs_ok provider env eu o hp),
        ncPairs_ok provider env eu o hp⟩
  · intro xs r h
    have h' : (normalizeConfigList provider env eu o xs).map (fun l => Value.list l) = .ok r := h
    cases hp : normalizeConfigList provider env eu o xs with
    | error e => rw [hp] at h'; exact Except.noConfusion h'
    | ok l =>
      rw [hp] at h'
      cases h'
      exact ⟨l, rfl, ncList_ok provider env eu o hp⟩
  · intro v hs hl hd
    cases v with
    | null => rfl
    | bool b => rfl
    | int n => rfl
    | float q => rfl
    | str s => exact absurd rfl (hs s)
    | list xs => exact absurd rfl (hl xs)
    | dict kvs => exact absurd rfl (hd kvs)

theorem C9_witness :
    (∃ kvs2, Value.dict kvs2 = Value.dict [("a", Value.bool true)] ∧
      kvs2.map Prod.fst = [("a", Value.str "1")].map Prod.fst ∧
      List.Forall₂ (fun kv kv2 => kv2.1 = kv.1 ∧
        normalizeConfig noEnv noEnv id defaultOpts kv.2 = .ok kv2.2)
        [("a", Value.str "1")] kvs2) ∧
    (∃ ys, Value.list ys = Value.list [Value.int 2] ∧
      List.Forall₂ (fun x y => normalizeConfig noEnv noEnv id defaultOpts x = .ok y)
        [Value.str "2.5"] ys) ∧
    normalizeConfig noEnv noEnv id defaultOpts (.int 7) = .ok (.int 7) := by
  refine ⟨?_, ?_, ?_⟩
  · have h := (C9_config_frame noEnv noEnv id defaultOpts).1 [("a", Value.str "1")]
      (.dict [("a", Value.bool true)]) rfl
    obtain ⟨kvs2, h1, h2, h3⟩ := h
    exact ⟨kvs2, h1 ▸ rfl, h2, h3⟩
  · have h := (C9_config_frame noEnv noEnv id defaultOpts).2.1 [Value.str "2.5"]
      (.list [Value.int 2]) rfl
    obtain ⟨ys, h1, h2⟩ := h
    exact ⟨ys, h1 ▸ rfl, h2⟩
  · exact (C9_config_frame noEnv noEnv id defaultOpts).2.2 (.int 7) nofun nofun nofun

/-! ### C5: enum enforcement -/

/-- The value the pipeline resolves for a string input: the whole
string pipeline including the lowercase step, before the enum check. -/
def resolveValue (env : String → Option String) (eu : String → String)
    (o : Opts) (s : String) : Except PyErr Value :=
  (strCore env eu o (fun p => normalizeAux env eu 0 (innerOpts o) (.str p)) s).map (lowerStep o)

/-- `normalize` on a string input is exactly the resolved pipeline
value fed to the enum check. -/
theorem normalize_str_decompose (env : String → Option String) (eu : String → String)
    (o : Opts) (s : String) :
    normalize env eu o (.str s) = (resolveValue env eu o s).bind (enumCheck o.enum) := rfl

/-- C5: whenever an enum allow-set is configured and the pipeline
resolves a non-None value for a string input, `normalize` raises a
`ValueError` carrying the offending value exactly when the value — or
its string conversion, for non-strings — is not a member of the
allow-set, and returns the value untouched when it is a member; it
never silently falls back. -/
theorem C5_enum_enforced :
    ∀ (env : String → Option String) (eu : String → String) (o : Opts)
      (s : String) (choices : List String) (v : Value),
      o.enum = some choices →
      resolveValue env eu o s = .ok v →
      v ≠ .null →
      (enumMember choices v = false →
        normalize env eu o (.str s) = .error (.enumErr v choices)) ∧
      (enumMember choices v = true → normalize env eu o (.str s) = .ok v) ∧
      enumMember choices v = (match v with
        | .str r => choices.contains r
        | v => choices.contains (pyStr v)) := by
  intro env eu o s choices v he hres hnn
  rw [normalize_str_decompose, hres, he]
  refine ⟨?_, ?_, ?_⟩
  · intro hm
    cases v with
    | null => exact absurd rfl hnn
    | bool b => simp [Except.bind, enumCheck, hm]
    | int n => simp [Except.bind, enumCheck, hm]
    | float q => simp [Except.bind, enumCheck, hm]
    | str r => simp [Except.bind, enumCheck, hm]
    | list xs => simp [Except.bind, enumCheck, hm]
    | dict kvs => simp [Except.bind, enumCheck, hm]
  · intro hm
    cases v with
    | null => exact absurd rfl hnn
    | bool b => simp [Except.bind, enumCheck, hm]
    | int n => simp [Except.bind, enumCheck, hm]
    | float q => simp [Except.bind, enumCheck, hm]
    | str r => simp [Except.bind, enumCheck, hm]
    | list xs => simp [Except.bind, enumCheck, hm]
    | dict kvs => simp [Except.bind, enumCheck, hm]
  · cases v <;> rfl

theorem C5_witness :
    ({ defaultOpts with enum := some ["dev", "prod"] } : Opts).enum = some ["dev", "prod"] ∧
    resolveValue noEnv id { defaultOpts with enum := some ["dev", "prod"] } "weird"
      = .ok (.str "weird") ∧
    (Value.str "weird" ≠ Value.null) ∧
    enumMember ["dev", "prod"] (.str "weird") = false ∧
    normalize noEnv id { defaultOpts with enum := some ["dev", "prod"] } (.str "weird")
      = .error (.enumErr (.str "weird") ["dev", "prod"]) ∧
    enumMember ["dev", "prod"] (.str "dev") = true ∧
    normalize noEnv id { defaultOpts with enum := some ["dev", "prod"] } (.str "dev")
      = .ok (.str "dev") :=
  ⟨rfl, rfl, nofun, rfl,
    (C5_enum_enforced noEnv id { defaultOpts with enum := some ["dev", "prod"] }
      "weird" ["dev", "prod"] (.str "weird") rfl rfl nofun).1 rfl,
    rfl,
    (C5_enum_enforced noEnv id { defaultOpts with enum := some ["dev", "prod"] }
      "dev" ["dev", "prod"] (.str "dev") rfl rfl nofun).2.1 rfl⟩

/-! ### List scanning helper lemmas -/

theorem takeWhile_all_append {p : Char → Bool} :
    ∀ {xs ys : List Char}, (∀ c ∈ xs, p c = true) →
      (xs ++ ys).takeWhile p = xs ++ ys.takeWhile p := by
  intro xs
  induction xs with
  | nil => intro ys _; rfl
  | cons c cs ih =>
    intro ys h
    have hc : p c = true := h c (List.mem_cons_self c cs)
    simp only [List.cons_append, List.takeWhile_cons, hc]
    rw [ih fun d hd => h d (List.mem_cons_of_mem c hd)]
    simp

theorem dropWhile_all_append {p : Char → Bool} :
    ∀ {xs ys : List Char}, (∀ c ∈ xs, p c = true) →
      (xs ++ ys).dropWhile p = ys.dropWhile p := by
  intro xs
  induction xs with
  | nil => intro ys _; rfl
  | cons c cs ih =>
    intro ys h
    have hc : p c = true := h c (List.mem_cons_self c cs)
    simp only [List.cons_append, List.dropWhile_cons, hc]
    exact ih fun d hd => h d (List.mem_cons_of_mem c hd)

theorem takeWhile_nil_of_false {p : Char → Bool} {c : Char} {cs : List Char}
    (h : p c = false) : (c :: cs).takeWhile p = [] := by
  simp [List.takeWhile_cons, h]

theorem dropWhile_id_of_false {p : Char → Bool} {c : Char} {cs : List Char}
    (h : p c = false) : (c :: cs).dropWhile p = c :: cs := by
  simp [List.dropWhile_cons, h]

theorem dropWhile_all_false {p : Char → Bool} :
    ∀ {cs : List Char}, (∀ c ∈ cs, p c = false) → cs.dropWhile p = cs := by
  intro cs
  induction cs with
  | nil => intro _; rfl
  | cons c cs _ =>
    intro h
    exact dropWhile_id_of_false (h c (List.mem_cons_self c cs))

theorem string_mk_data (s : String) : String.mk s.data = s := rfl

theorem interpGo_nil (lookup : String → Option String) (n : Nat) :
    interpGo lookup n [] = [] := by
  cases n <;> rfl

/-! ### C4: leaf expansion in `normalize_config` -/

/-- C4 counterexample: with a layered provider mapping `A` to the text
`$B` and the process environment mapping `B` to `c`, `normalize_config`
turns the leaf `${A}` into `"c"` — the text produced by the layered
expansion is rescanned by `normalize`'s own interpolation stage (which
consults the process environment only), so the leaf is NOT expanded
exactly once under the layered precedence: a single expansion produces
`"$B"`, which `normalize` without interpolation leaves unchanged. -/
theorem C4_counterexample :
    normalizeConfig (fun n => if n = "A" then some "$B" else none)
        (fun n => if n = "B" then some "c" else none) id defaultOpts (.str "$\x7bA\x7d")
      = .ok (.str "c") ∧
    interpolateWith (fun n => if n = "A" then some "$B" else none) "$\x7bA\x7d" = "$B" ∧
    normalize (fun n => if n = "B" then some "c" else none) id
        { defaultOpts with interpolate_env := false } (.str "$B") = .ok (.str "$B") ∧
    Value.str "c" ≠ Value.str "$B" := by
  refine ⟨rfl, rfl, rfl, ?_⟩
  intro h
  exact absurd (Value.str.inj h) (by decide)

/-- C4 (amended): `normalize_config` expands each string leaf exactly
once through the layered provider and hands the result to `normalize`,
whose own interpolation stage (enabled by default, consulting the
process environment only) may expand remaining `$` tokens a second
time; each single interpolator pass substitutes without rescanning the
substituted text — a provider value is inserted verbatim even when it
contains further `${...}` tokens. -/
theorem C4_leaf_expansion :
    (∀ (provider env : String → Option String) (eu : String → String) (o : Opts) (s : String),
      normalizeConfig provider env eu o (.str s)
        = normalize env eu o (.str (interpolateWith provider s))) ∧
    (∀ (lookup : String → Option String) (c : Char) (cs : List Char) (r : String),
      idStart c = true → (∀ d ∈ cs, idCont d = true) →
      lookup (String.mk (c :: cs)) = some r →
      interpolateWith lookup (String.mk ('$' :: '\x7b' :: (c :: cs) ++ ['\x7d'])) = r) := by
  constructor
  · intro provider env eu o s
    rfl
  · intro lookup c cs r hc hcs hlk
    have hbr : parseBraced ('\x7b' :: c :: (cs ++ ['\x7d']))
        = some (String.mk (c :: cs), none, []) := by
      simp only [parseBraced]
      rw [if_pos hc, takeWhile_all_append hcs, dropWhile_all_append hcs]
      rw [show List.takeWhile idCont ['\x7d'] = [] from rfl,
        show List.dropWhile idCont ['\x7d'] = ['\x7d'] from rfl, List.append_nil]
      rfl
    have key : ∀ n : Nat,
        interpGo lookup (n + 1) ('$' :: '\x7b' :: c :: (cs ++ ['\x7d'])) = r.data := by
      intro n
      rw [interpGo.eq_def]
      simp only [hbr]
      rw [hlk]
      simp [interpGo_nil]
    unfold interpolateWith
    have hd : (String.mk ('$' :: '\x7b' :: (c :: cs) ++ ['\x7d'])).data
        = '$' :: '\x7b' :: c :: (cs ++ ['\x7d']) := rfl
    rw [hd]
    have hlen : ('$' :: '\x7b' :: c :: (cs ++ ['\x7d'])).length = cs.length + 3 + 1 := by
      simp
    rw [hlen, key (cs.length + 3)]

/-! ### Character-class facts for symbolic pipeline runs -/

theorem digit_not_ws {c : Char} (h : c.isDigit = true) : pyWs c = false := by
  by_contra hw
  rw [Bool.not_eq_false] at hw
  simp only [pyWs, Bool.or_eq_true, decide_eq_true_eq] at hw
  rcases hw with ((((rfl | rfl) | rfl) | rfl) | rfl) | rfl <;> exact absurd h (by decide)

theorem digit_ne {c d : Char} (h : c.isDigit = true) (hd : d.isDigit = false) : c ≠ d :=
  fun he => by rw [he] at h; rw [h] at hd; cases hd

theorem digit_not_quote {c : Char} (h : c.isDigit = true) : isQuoteChar c = false := by
  have h1 : c ≠ '"' := digit_ne h (by decide)
  have h2 : c ≠ '\x27' := digit_ne h (by decide)
  simp [isQuoteChar, h1, h2]

theorem containsSub_single_false {a : Char} :
    ∀ {cs : List Char}, (∀ c ∈ cs, c ≠ a) → containsSubL [a] cs = false := by
  intro cs
  induction cs with
  | nil => intro _; rfl
  | cons c rest ih =>
    intro h
    have hac : ¬ (a = c) := fun he => (h c (List.mem_cons_self c rest)) he.symm
    simp only [containsSubL, listStarts, decide_eq_false hac, Bool.false_and, Bool.false_or]
    exact ih fun d hd => h d (List.mem_cons_of_mem c hd)

theorem pyStripL_id {cs : List Char} (h : ∀ c ∈ cs, pyWs c = false) : pyStripL cs = cs := by
  unfold pyStripL
  rw [dropWhile_all_false h]
  rw [dropWhile_all_false fun c hc => h c (List.mem_reverse.mp hc)]
  exact List.reverse_reverse cs

theorem dropWhile_all_true {p : Char → Bool} {cs : List Char}
    (h : ∀ c ∈ cs, p c = true) : cs.dropWhile p = [] := by
  have h2 := @dropWhile_all_append p cs ([] : List Char) h
  simpa using h2

theorem takeWhile_all_true {p : Char → Bool} {cs : List Char}
    (h : ∀ c ∈ cs, p c = true) : cs.takeWhile p = cs := by
  have h2 := @takeWhile_all_append p cs ([] : List Char) h
  simpa using h2

theorem stripMatchingQuotes_id {s : String} {c : Char} {cs : List Char}
    (hdata : s.data = c :: cs) (hq : isQuoteChar c = false) :
    stripMatchingQuotes s = (s, false) := by
  cases hg : cs.getLast? with
  | none => simp [stripMatchingQuotes, hdata, hg]
  | some d => simp [stripMatchingQuotes, hdata, hg, hq]

theorem strStarts_false {s p : String} {c pc : Char} {cs pcs : List Char}
    (hs : s.data = c :: cs) (hp : p.data = pc :: pcs) (hne : pc ≠ c) :
    strStarts s p = false := by
  unfold strStarts
  rw [hs, hp]
  simp [listStarts, hne]

theorem sentinel_contains_false {sl : String} (h : '.' ∈ sl.data) :
    nullSentinels.contains sl = false ∧ trueSentinels.contains sl = false ∧
      falseSentinels.contains sl = false := by
  have h1 : sl ≠ "null" := fun he => by rw [he] at h; exact absurd h (by decide)
  have h2 : sl ≠ "none" := fun he => by rw [he] at h; exact absurd h (by decide)
  have h3 : sl ≠ "nil" := fun he => by rw [he] at h; exact absurd h (by decide)
  have h4 : sl ≠ "undefined" := fun he => by rw [he] at h; exact absurd h (by decide)
  have h5 : sl ≠ "true" := fun he => by rw [he] at h; exact absurd h (by decide)
  have h6 : sl ≠ "yes" := fun he => by rw [he] at h; exact absurd h (by decide)
  have h7 : sl ≠ "y" := fun he => by rw [he] at h; exact absurd h (by decide)
  have h8 : sl ≠ "on" := fun he => by rw [he] at h; exact absurd h (by decide)
  have h9 : sl ≠ "1" := fun he => by rw [he] at h; exact absurd h (by decide)
  have h10 : sl ≠ "false" := fun he => by rw [he] at h; exact absurd h (by decide)
  have h11 : sl ≠ "no" := fun he => by rw [he] at h; exact absurd h (by decide)
  have h12 : sl ≠ "n" := fun he => by rw [he] at h; exact absurd h (by decide)
  have h13 : sl ≠ "off" := fun he => by rw [he] at h; exact absurd h (by decide)
  have h14 : sl ≠ "0" := fun he => by rw [he] at h; exact absurd h (by decide)
  refine ⟨?_, ?_, ?_⟩ <;>
    simp [nullSentinels, trueSentinels, falseSentinels,
      h1, h2, h3, h4, h5, h6, h7, h8, h9, h10, h11, h12, h13, h14]

/-! ### Symbolic runs of the scalar parsers on plain decimal fractions -/

theorem data_mk (l : List Char) : (String.mk l).data = l := rfl

theorem qMul_one (q : Rat) : qMul q (qOfInt 1) = q := by
  rw [qMul_eq, qOfInt_eq]
  simp

theorem decimal_chars (sgn d1 d2 : List Char)
    (hsgn : sgn = [] ∨ sgn = ['+'] ∨ sgn = ['-'])
    (hd1 : ∀ c ∈ d1, c.isDigit = true) (hd2 : ∀ c ∈ d2, c.isDigit = true) :
    ∀ c ∈ sgn ++ d1 ++ '.' :: d2, c.isDigit = true ∨ c = '.' ∨ c = '+' ∨ c = '-' := by
  intro c hc
  rcases List.mem_append.mp hc with hc | hc
  · rcases List.mem_append.mp hc with hc | hc
    · rcases hsgn with rfl | rfl | rfl
      · cases hc
      · simp only [List.mem_singleton] at hc
        subst hc
        right; right; left; rfl
      · simp only [List.mem_singleton] at hc
        subst hc
        right; right; right; rfl
    · exact Or.inl (hd1 c hc)
  · rcases List.mem_cons.mp hc with rfl | hc
    · right; left; rfl
    · exact Or.inl (hd2 c hc)

theorem cls_not_ws {c : Char} (h : c.isDigit = true ∨ c = '.' ∨ c = '+' ∨ c = '-') :
    pyWs c = false := by
  rcases h with h | rfl | rfl | rfl
  · exact digit_not_ws h
  · decide
  · decide
  · decide

theorem cls_ne_dollar {c : Char} (h : c.isDigit = true ∨ c = '.' ∨ c = '+' ∨ c = '-') :
    c ≠ '$' := by
  rcases h with h | rfl | rfl | rfl
  · exact digit_ne h (by decide)
  · decide
  · decide
  · decide

theorem cls_not_quote {c : Char} (h : c.isDigit = true ∨ c = '.' ∨ c = '+' ∨ c = '-') :
    isQuoteChar c = false := by
  rcases h with h | rfl | rfl | rfl
  · exact digit_not_quote h
  · decide
  · decide
  · decide

theorem cls_ne_tilde {c : Char} (h : c.isDigit = true ∨ c = '.' ∨ c = '+' ∨ c = '-') :
    c ≠ '~' := by
  rcases h with h | rfl | rfl | rfl
  · exact digit_ne h (by decide)
  · decide
  · decide
  · decide

theorem signSplit_digit {c : Char} (h : c.isDigit = true) (cs : List Char) :
    signSplit (c :: cs) = (false, c :: cs) := by
  simp only [signSplit]
  rw [if_neg (digit_ne h (by decide)), if_neg (digit_ne h (by decide))]

/-- `bytesTail` on `d1.d2` with nothing after: the exact fraction, no
unit group. -/
theorem bytesTail_dec (neg : Bool) (d1 d2 : List Char)
    (h1 : d1 ≠ []) (hd1 : ∀ c ∈ d1, c.isDigit = true)
    (h2 : d2 ≠ []) (hd2 : ∀ c ∈ d2, c.isDigit = true) :
    bytesTail neg (d1 ++ '.' :: d2) = some (applySign neg (fracVal d1 d2), "") := by
  have htake : (d1 ++ '.' :: d2).takeWhile Char.isDigit = d1 := by
    rw [takeWhile_all_append hd1,
      takeWhile_nil_of_false (by decide : Char.isDigit '.' = false), List.append_nil]
  have hdrop : (d1 ++ '.' :: d2).dropWhile Char.isDigit = '.' :: d2 := by
    rw [dropWhile_all_append hd1, dropWhile_id_of_false (by decide)]
  have hie : d1.isEmpty = false := by
    cases d1
    · exact absurd rfl h1
    · rfl
  have hie2 : d2.isEmpty = false := by
    cases d2
    · exact absurd rfl h2
    · rfl
  unfold bytesTail
  rw [htake, hdrop]
  simp [hie, hie2, takeWhile_all_true hd2, dropWhile_all_true hd2]

theorem bytesLex_dec (sgn d1 d2 : List Char)
    (hsgn : sgn = [] ∨ sgn = ['+'] ∨ sgn = ['-'])
    (h1 : d1 ≠ []) (hd1 : ∀ c ∈ d1, c.isDigit = true)
    (h2 : d2 ≠ []) (hd2 : ∀ c ∈ d2, c.isDigit = true) :
    bytesLex (String.mk (sgn ++ d1 ++ '.' :: d2))
      = some (applySign (decide (sgn = ['-'])) (fracVal d1 d2), "") := by
  have hnows : ∀ c ∈ sgn ++ d1 ++ '.' :: d2, pyWs c = false :=
    fun c hc => cls_not_ws (decimal_chars sgn d1 d2 hsgn hd1 hd2 c hc)
  unfold bytesLex
  rw [data_mk, dropWhile_all_false hnows]
  rcases hsgn with rfl | rfl | rfl
  · obtain ⟨c1, d1t, rfl⟩ : ∃ c1 d1t, d1 = c1 :: d1t := by
      cases d1
      · exact absurd rfl h1
      · exact ⟨_, _, rfl⟩
    rw [List.nil_append, List.cons_append]
    show bytesTail (signSplit (c1 :: (d1t ++ '.' :: d2))).1
        (signSplit (c1 :: (d1t ++ '.' :: d2))).2 = _
    rw [signSplit_digit (hd1 c1 (List.mem_cons_self _ _)) (d1t ++ '.' :: d2)]
    show bytesTail false (c1 :: (d1t ++ '.' :: d2)) = _
    rw [← List.cons_append]
    rw [bytesTail_dec false (c1 :: d1t) d2 h1 hd1 h2 hd2]
    rfl
  · rw [List.cons_append, List.nil_append]
    show bytesTail (signSplit ('+' :: (d1 ++ '.' :: d2))).1
        (signSplit ('+' :: (d1 ++ '.' :: d2))).2 = _
    rw [show signSplit ('+' :: (d1 ++ '.' :: d2)) = (false, d1 ++ '.' :: d2) from rfl]
    rw [bytesTail_dec false d1 d2 h1 hd1 h2 hd2]
    rfl
  · rw [List.cons_append, List.nil_append]
    show bytesTail (signSplit ('-' :: (d1 ++ '.' :: d2))).1
        (signSplit ('-' :: (d1 ++ '.' :: d2))).2 = _
    rw [show signSplit ('-' :: (d1 ++ '.' :: d2)) = (true, d1 ++ '.' :: d2) from rfl]
    rw [bytesTail_dec true d1 d2 h1 hd1 h2 hd2]
    rfl

theorem unitLex_nil : unitLex durUnits [] = none := rfl

/-- `numLex` on `d1.d2` with nothing after. -/
theorem numLex_dec (d1 d2 : List Char)
    (h1 : d1 ≠ []) (hd1 : ∀ c ∈ d1, c.isDigit = true)
    (h2 : d2 ≠ []) (hd2 : ∀ c ∈ d2, c.isDigit = true) :
    numLex (d1 ++ '.' :: d2) = some (fracVal d1 d2, []) := by
  have htake : (d1 ++ '.' :: d2).takeWhile Char.isDigit = d1 := by
    rw [takeWhile_all_append hd1,
      takeWhile_nil_of_false (by decide : Char.isDigit '.' = false), List.append_nil]
  have hdrop : (d1 ++ '.' :: d2).dropWhile Char.isDigit = '.' :: d2 := by
    rw [dropWhile_all_append hd1, dropWhile_id_of_false (by decide)]
  have hie : d1.isEmpty = false := by
    cases d1
    · exact absurd rfl h1
    · rfl
  have hie2 : d2.isEmpty = false := by
    cases d2
    · exact absurd rfl h2
    · rfl
  unfold numLex
  rw [htake, hdrop]
  simp [hie, hie2, takeWhile_all_true hd2, dropWhile_all_true hd2]

theorem durTileF_cons_none {n : Nat} {c : Char} {rest : List Char}
    (h : durToken (c :: rest) = none) : durTileF (n + 1) (c :: rest) = none := by
  simp [durTileF, h]

/-- No duration token can be read from a plain decimal fraction (the
numeral is consumed, and no unit follows), so the duration parser
rejects it. -/
theorem parseDuration_dec_none (sgn d1 d2 : List Char)
    (hsgn : sgn = [] ∨ sgn = ['+'] ∨ sgn = ['-'])
    (h1 : d1 ≠ []) (hd1 : ∀ c ∈ d1, c.isDigit = true)
    (h2 : d2 ≠ []) (hd2 : ∀ c ∈ d2, c.isDigit = true) :
    parseDurationToSeconds (String.mk (sgn ++ d1 ++ '.' :: d2)) = none := by
  unfold parseDurationToSeconds
  rw [data_mk]
  rcases hsgn with rfl | rfl | rfl
  · obtain ⟨c1, d1t, rfl⟩ : ∃ c1 d1t, d1 = c1 :: d1t := by
      cases d1
      · exact absurd rfl h1
      · exact ⟨_, _, rfl⟩
    rw [List.nil_append, List.cons_append, List.length_cons]
    refine durTileF_cons_none ?_
    unfold durToken
    rw [← List.cons_append, numLex_dec (c1 :: d1t) d2 h1 hd1 h2 hd2]
    rfl
  · rw [List.cons_append, List.nil_append, List.cons_append, List.length_cons]
    refine durTileF_cons_none ?_
    unfold durToken numLex
    rw [takeWhile_nil_of_false (by decide : Char.isDigit '+' = false)]
    rfl
  · rw [List.cons_append, List.nil_append, List.cons_append, List.length_cons]
    refine durTileF_cons_none ?_
    unfold durToken numLex
    rw [takeWhile_nil_of_false (by decide : Char.isDigit '-' = false)]
    rfl

/-- `parseBytes` on a plain decimal fraction: unit defaults to bytes
(factor 1) and the value is truncated to an integer. -/
theorem parseBytes_dec (sgn d1 d2 : List Char)
    (hsgn : sgn = [] ∨ sgn = ['+'] ∨ sgn = ['-'])
    (h1 : d1 ≠ []) (hd1 : ∀ c ∈ d1, c.isDigit = true)
    (h2 : d2 ≠ []) (hd2 : ∀ c ∈ d2, c.isDigit = true) :
    parseBytes (String.mk (sgn ++ d1 ++ '.' :: d2))
      = some (pyTrunc (applySign (decide (sgn = ['-'])) (fracVal d1 d2))) := by
  unfold parseBytes
  rw [bytesLex_dec sgn d1 d2 hsgn h1 hd1 h2 hd2]
  show some (pyTrunc (qMul (applySign (decide (sgn = ['-'])) (fracVal d1 d2)) (qOfInt 1)))
    = some (pyTrunc (applySign (decide (sgn = ['-'])) (fracVal d1 d2)))
  rw [qMul_one]

/-- C10: because the byte-size stage precedes the numeric stage and
accepts a unitless fractional number (unit defaulting to bytes, factor
1, truncating), every plain decimal-fraction numeral without an
exponent normalizes (under default options) to the truncated integer
rather than a float — e.g. "2.5" to 2 and "0.001" to 0 — while exponent
forms like "1e-3" and leading-dot forms like ".5" fall through to the
numeric stage and yield floats. -/
theorem C10_decimal_truncation :
    (∀ (env : String → Option String) (eu : String → String) (sgn d1 d2 : List Char),
      (sgn = [] ∨ sgn = ['+'] ∨ sgn = ['-']) → d1 ≠ [] → (∀ c ∈ d1, c.isDigit = true) →
      d2 ≠ [] → (∀ c ∈ d2, c.isDigit = true) →
      normalize env eu defaultOpts (.str (String.mk (sgn ++ d1 ++ '.' :: d2)))
        = .ok (.int (pyTrunc (applySign (decide (sgn = ['-'])) (fracVal d1 d2))))) ∧
    normalize noEnv id defaultOpts (.str "2.5") = .ok (.int 2) ∧
    normalize noEnv id defaultOpts (.str "0.001") = .ok (.int 0) ∧
    (∃ q, normalize noEnv id defaultOpts (.str "1e-3") = .ok (.float q)) ∧
    (∃ q, normalize noEnv id defaultOpts (.str ".5") = .ok (.float q)) := by
  refine ⟨?_, rfl, rfl, ⟨Rat.divInt 1 1000, rfl⟩, ⟨Rat.divInt 1 2, rfl⟩⟩
  intro env eu sgn d1 d2 hsgn h1 hd1 h2 hd2
  have hcls := decimal_chars sgn d1 d2 hsgn hd1 hd2
  have hhead : ∃ c0 t0, sgn ++ d1 ++ '.' :: d2 = c0 :: t0 ∧
      (c0.isDigit = true ∨ c0 = '.' ∨ c0 = '+' ∨ c0 = '-') := by
    rcases hsgn with rfl | rfl | rfl
    · obtain ⟨c1, d1t, rfl⟩ : ∃ c1 d1t, d1 = c1 :: d1t := by
        cases d1
        · exact absurd rfl h1
        · exact ⟨_, _, rfl⟩
      exact ⟨c1, d1t ++ '.' :: d2, by simp, Or.inl (hd1 c1 (List.mem_cons_self _ _))⟩
    · exact ⟨'+', d1 ++ '.' :: d2, by simp, by right; right; left; rfl⟩
    · exact ⟨'-', d1 ++ '.' :: d2, by simp, by right; right; right; rfl⟩
  obtain ⟨c0, t0, hdata, hc0⟩ := hhead
  have hstrip : pyStrip (String.mk (sgn ++ d1 ++ '.' :: d2))
      = String.mk (sgn ++ d1 ++ '.' :: d2) := by
    unfold pyStrip
    rw [data_mk, pyStripL_id fun c hc => cls_not_ws (hcls c hc)]
  have hdol : containsSub (String.mk (sgn ++ d1 ++ '.' :: d2)) "$" = false := by
    unfold containsSub
    rw [data_mk]
    exact containsSub_single_false fun c hc => cls_ne_dollar (hcls c hc)
  have hne : ¬ (String.mk (sgn ++ d1 ++ '.' :: d2) = "") := by
    intro he
    have h0 : sgn ++ d1 ++ '.' :: d2 = ([] : List Char) := congrArg String.data he
    rw [hdata] at h0
    cases h0
  have hq : stripMatchingQuotes (String.mk (sgn ++ d1 ++ '.' :: d2))
      = (String.mk (sgn ++ d1 ++ '.' :: d2), false) :=
    stripMatchingQuotes_id (by rw [data_mk, hdata]) (cls_not_quote hc0)
  have ht1 : strStarts (String.mk (sgn ++ d1 ++ '.' :: d2)) "~/" = false :=
    strStarts_false (by rw [data_mk, hdata]) rfl (Ne.symm (cls_ne_tilde hc0))
  have ht2 : strStarts (String.mk (sgn ++ d1 ++ '.' :: d2)) "~\\" = false :=
    strStarts_false (by rw [data_mk, hdata]) rfl (Ne.symm (cls_ne_tilde hc0))
  have hdotsl : '.' ∈ (pyLower (String.mk (sgn ++ d1 ++ '.' :: d2))).data := by
    show '.' ∈ (sgn ++ d1 ++ '.' :: d2).map lowAscii
    exact List.mem_map.mpr ⟨'.', List.mem_append.mpr (Or.inr (List.mem_cons_self _ _)), rfl⟩
  obtain ⟨hn, htr, hfa⟩ := sentinel_contains_false hdotsl
  have hsent : sentinelStage defaultOpts (String.mk (sgn ++ d1 ++ '.' :: d2))
      (pyLower (String.mk (sgn ++ d1 ++ '.' :: d2))) = .ok none := by
    unfold sentinelStage
    rw [hn, htr, hfa]
    rfl
  have hdbn : durBytesNumStage defaultOpts (String.mk (sgn ++ d1 ++ '.' :: d2))
      = some (.int (pyTrunc (applySign (decide (sgn = ['-'])) (fracVal d1 d2)))) := by
    unfold durBytesNumStage
    rw [parseDuration_dec_none sgn d1 d2 hsgn h1 hd1 h2 hd2,
      parseBytes_dec sgn d1 d2 hsgn h1 hd1 h2 hd2]
    rfl
  have e1 : normalize env eu defaultOpts (.str (String.mk (sgn ++ d1 ++ '.' :: d2)))
      = ((strCore env eu defaultOpts
          (fun p => normalizeAux env eu 0 (innerOpts defaultOpts) (.str p))
          (String.mk (sgn ++ d1 ++ '.' :: d2))).map
        (lowerStep defaultOpts)).bind (enumCheck defaultOpts.enum) := rfl
  rw [e1]
  generalize hS : String.mk (sgn ++ d1 ++ '.' :: d2) = S at hstrip hdol hne hq ht1 ht2 hsent hdbn ⊢
  unfold strCore
  simp [hstrip, hdol, hne, hq, ht1, ht2, hsent, hdbn, lowerStep, Except.map, Except.bind,
    enumCheck]
  rfl

theorem C10_witness :
    String.mk (([] : List Char) ++ ['2'] ++ '.' :: ['5']) = "2.5" ∧
    pyTrunc (applySign (decide (([] : List Char) = ['-'])) (fracVal ['2'] ['5'])) = 2 ∧
    normalize noEnv id defaultOpts
        (.str (String.mk (([] : List Char) ++ ['2'] ++ '.' :: ['5'])))
      = .ok (.int (pyTrunc (applySign (decide (([] : List Char) = ['-'])) (fracVal ['2'] ['5'])))) :=
  ⟨rfl, by decide,
    C10_decimal_truncation.1 noEnv id [] ['2'] ['5'] (Or.inl rfl)
      (by decide) (by decide) (by decide) (by decide)⟩

theorem C4_witness :
    normalizeConfig noEnv noEnv id defaultOpts (.str "hi")
      = normalize noEnv id defaultOpts (.str (interpolateWith noEnv "hi")) ∧
    idStart 'A' = true ∧
    interpolateWith (fun n => if n = "A" then some "x$\x7bB\x7d" else none)
      (String.mk ('$' :: '\x7b' :: ('A' :: ([] : List Char)) ++ ['\x7d'])) = "x$\x7bB\x7d" :=
  ⟨C4_leaf_expansion.1 noEnv noEnv id defaultOpts "hi", rfl,
    C4_leaf_expansion.2 (fun n => if n = "A" then some "x$\x7bB\x7d" else none) 'A' []
      "x$\x7bB\x7d" rfl (fun d hd => absurd hd (List.not_mem_nil d)) rfl⟩

/-! ### C2: duration tokens and exact covers (spec-side formulation)

The spec describes the duration parser as matching exactly the strings
covered start-to-end by one or more contiguous `<number><unit>` tokens,
the result being the sum of the token values in seconds.  `DTok` and
`CoverSum` state that characterization independently of the greedy
scanner. -/

def lookupRat : List (String × Rat) → String → Option Rat
  | [], _ => none
  | (k, v) :: tl, u => if u = k then some v else lookupRat tl u

def durUnitNames : List String := durUnits.map Prod.fst

/-- The optional fractional part of a token number, as text. -/
def fracPart : Option (List Char) → List Char
  | some d => '.' :: d
  | none => []

/-- Exact value of `\d+` digits with an optional `.\d+` fraction. -/
def numValOf (d1 : List Char) : Option (List Char) → Rat
  | some d => fracVal d1 d
  | none => qOfInt (decDigitsVal d1)

theorem fracPart_none : fracPart none = [] := rfl

theorem fracPart_some (d : List Char) : fracPart (some d) = '.' :: d := rfl

/-- One `<number><unit>` token of the duration pattern, as written:
integer digits, an optional fractional digit group, and a unit. -/
structure DTok where
  numInt : List Char
  numFrac : Option (List Char)
  unit : String

def DTok.text (t : DTok) : List Char :=
  t.numInt ++ fracPart t.numFrac ++ t.unit.data

def DTok.numVal (t : DTok) : Rat :=
  numValOf t.numInt t.numFrac

/-- Token value in seconds: the number times the unit factor. -/
def DTok.val (t : DTok) : Rat :=
  qMul t.numVal ((lookupRat durUnits t.unit).getD 0)

/-- A syntactically well-formed token: `\d+(\.\d+)?` and a unit of the
pattern. -/
def DTok.Valid (t : DTok) : Prop :=
  t.numInt ≠ [] ∧ (∀ c ∈ t.numInt, c.isDigit = true) ∧
  (∀ d, t.numFrac = some d → d ≠ [] ∧ ∀ c ∈ d, c.isDigit = true) ∧
  t.unit ∈ durUnitNames

def sumVals : List DTok → Rat
  | [] => 0
  | t :: ts => qAdd t.val (sumVals ts)

/-- `ts` is a list of valid tokens whose texts exactly cover `cs`, with
total value `q`. -/
def CoverSum (ts : List DTok) (cs : List Char) (q : Rat) : Prop :=
  (∀ t ∈ ts, t.Valid) ∧ (ts.map DTok.text).flatten = cs ∧ sumVals ts = q

theorem listStarts_iff {p : List Char} :
    ∀ {cs : List Char}, listStarts p cs = true ↔ ∃ t, cs = p ++ t := by
  induction p with
  | nil =>
    intro cs
    simp [listStarts]
  | cons a as ih =>
    intro cs
    cases cs with
    | nil =>
      simp [listStarts]
    | cons b bs =>
      simp only [listStarts, Bool.and_eq_true, decide_eq_true_eq, ih]
      constructor
      · rintro ⟨rfl, t, rfl⟩
        exact ⟨t, rfl⟩
      · rintro ⟨t, ht⟩
        injection ht with h1 h2
        exact ⟨h1.symm, t, h2⟩

/-! #### Soundness: the greedy scan yields a cover -/

theorem unitLex_sound {f : Rat} {r2 : List Char} :
    ∀ {us : List (String × Rat)} {r : List Char}, unitLex us r = some (f, r2) →
      ∃ u, (u, f) ∈ us ∧ r = u.data ++ r2 := by
  intro us
  induction us with
  | nil => intro r h; exact absurd h (by simp [unitLex])
  | cons uf tl ih =>
    intro r h
    obtain ⟨u0, f0⟩ := uf
    simp only [unitLex] at h
    by_cases hs : listStarts u0.data r = true
    · rw [if_pos hs] at h
      obtain ⟨t, rfl⟩ := listStarts_iff.mp hs
      cases h
      refine ⟨u0, List.mem_cons_self _ _, ?_⟩
      rw [List.drop_left]
    · rw [if_neg hs] at h
      obtain ⟨u, hm, he⟩ := ih h
      exact ⟨u, List.mem_cons_of_mem _ hm, he⟩

theorem durUnits_lookup {u : String} {f : Rat} (h : (u, f) ∈ durUnits) :
    lookupRat durUnits u = some f := by
  simp only [durUnits, List.mem_cons, List.not_mem_nil, or_false] at h
  rcases h with h | h | h | h | h | h | h | h | h <;>
    (obtain ⟨rfl, rfl⟩ := Prod.mk.inj h; rfl)

theorem numLex_sound {cs : List Char} {a : Rat} {r : List Char}
    (h : numLex cs = some (a, r)) :
    ∃ (d1 : List Char) (frac : Option (List Char)),
      d1 ≠ [] ∧ (∀ c ∈ d1, c.isDigit = true) ∧
      (∀ d, frac = some d → d ≠ [] ∧ ∀ c ∈ d, c.isDigit = true) ∧
      cs = d1 ++ (fracPart frac ++ r) ∧
      a = numValOf d1 frac := by
  have hsplit := List.takeWhile_append_dropWhile (p := Char.isDigit) (l := cs)
  have hmem : ∀ c ∈ cs.takeWhile Char.isDigit, c.isDigit = true :=
    fun c hc => List.mem_takeWhile_imp hc
  unfold numLex at h
  by_cases hie : (cs.takeWhile Char.isDigit).isEmpty
  · rw [if_pos hie] at h
    exact absurd h (by simp)
  · rw [if_neg hie] at h
    have hne : cs.takeWhile Char.isDigit ≠ [] := by
      cases he : cs.takeWhile Char.isDigit
      · rw [he] at hie; exact absurd rfl hie
      · exact fun hh => List.noConfusion hh
    cases hdw : cs.dropWhile Char.isDigit with
    | nil =>
      rw [hdw] at h
      cases h
      refine ⟨cs.takeWhile Char.isDigit, none, hne, hmem, by simp, ?_, rfl⟩
      rw [fracPart_none, List.nil_append]
      conv_lhs => rw [← hsplit]
      rw [hdw]
    | cons c2 r2 =>
      rw [hdw] at h
      simp only [] at h
      by_cases hc2 : c2 = '.'
      · rw [if_pos hc2] at h
        by_cases hd2 : (r2.takeWhile Char.isDigit).isEmpty
        · rw [if_pos hd2] at h
          cases h
          refine ⟨cs.takeWhile Char.isDigit, none, hne, hmem, by simp, ?_, rfl⟩
          rw [fracPart_none, List.nil_append]
          conv_lhs => rw [← hsplit]
          rw [hdw]
        · rw [if_neg hd2] at h
          cases h
          have hne2 : r2.takeWhile Char.isDigit ≠ [] := by
            cases he : r2.takeWhile Char.isDigit
            · rw [he] at hd2; exact absurd rfl hd2
            · exact fun hh => List.noConfusion hh
          refine ⟨cs.takeWhile Char.isDigit, some (r2.takeWhile Char.isDigit), hne, hmem,
            ?_, ?_, rfl⟩
          · intro d hd
            cases hd
            exact ⟨hne2, fun c hc => List.mem_takeWhile_imp hc⟩
          · rw [fracPart_some]
            conv_lhs => rw [← hsplit]
            rw [hdw, hc2]
            have hsplit2 := List.takeWhile_append_dropWhile (p := Char.isDigit) (l := r2)
            conv_lhs => rw [← hsplit2]
            simp
      · rw [if_neg hc2] at h
        cases h
        refine ⟨cs.takeWhile Char.isDigit, none, hne, hmem, by simp, ?_, rfl⟩
        rw [fracPart_none, List.nil_append]
        conv_lhs => rw [← hsplit]
        rw [hdw]

theorem coverSum_def (ts : List DTok) (cs : List Char) (q : Rat) :
    CoverSum ts cs q ↔
      (∀ t ∈ ts, t.Valid) ∧ (ts.map DTok.text).flatten = cs ∧ sumVals ts = q :=
  Iff.rfl

theorem durTileF_nil (fuel : Nat) : durTileF fuel [] = some 0 := by
  cases fuel <;> rfl

theorem durToken_sound {cs : List Char} {v : Rat} {r2 : List Char}
    (h : durToken cs = some (v, r2)) :
    ∃ t : DTok, t.Valid ∧ cs = t.text ++ r2 ∧ v = t.val ∧ r2.length < cs.length := by
  unfold durToken at h
  cases hn : numLex cs with
  | none => rw [hn] at h; exact absurd h (by simp)
  | some ar =>
    obtain ⟨a, r⟩ := ar
    rw [hn] at h
    simp only [] at h
    cases hu : unitLex durUnits r with
    | none => rw [hu] at h; exact absurd h (by simp)
    | some fr =>
      obtain ⟨f, rr⟩ := fr
      rw [hu] at h
      simp only [Option.some.injEq, Prod.mk.injEq] at h
      obtain ⟨hv, hr2⟩ := h
      obtain ⟨d1, frac, hne, hd1, hfrac, hcs, ha⟩ := numLex_sound hn
      obtain ⟨u, hmem, hru⟩ := unitLex_sound hu
      subst hr2
      refine ⟨⟨d1, frac, u⟩,
        ⟨hne, hd1, hfrac, List.mem_map_of_mem Prod.fst hmem⟩, ?_, ?_, ?_⟩
      · show cs = (d1 ++ fracPart frac ++ u.data) ++ rr
        rw [hcs, hru]
        simp [List.append_assoc]
      · rw [← hv]
        show qMul a f = qMul (numValOf d1 frac) ((lookupRat durUnits u).getD 0)
        rw [durUnits_lookup hmem, ha]
        rfl
      · have hlen : cs = d1 ++ (fracPart frac ++ (u.data ++ rr)) := by rw [hcs, hru]
        cases d1 with
        | nil => exact absurd rfl hne
        | cons c0 cr =>
          rw [hlen]
          simp only [List.length_append, List.length_cons]
          omega

theorem durTileF_sound :
    ∀ (fuel : Nat) {cs : List Char} {q : Rat}, durTileF fuel cs = some q →
      ∃ ts : List DTok, CoverSum ts cs q ∧ (cs ≠ [] → ts ≠ []) := by
  intro fuel
  induction fuel with
  | zero =>
    intro cs q h
    cases cs with
    | nil =>
      have h2 : (some (0 : Rat) : Option Rat) = some q := h
      injection h2 with h3
      exact ⟨[], ⟨fun t ht => absurd ht (List.not_mem_nil t), rfl, h3⟩,
        fun hc => absurd rfl hc⟩
    | cons c rest => exact absurd h (by simp [durTileF])
  | succ n ih =>
    intro cs q h
    cases cs with
    | nil =>
      have h2 : (some (0 : Rat) : Option Rat) = some q := h
      injection h2 with h3
      exact ⟨[], ⟨fun t ht => absurd ht (List.not_mem_nil t), rfl, h3⟩,
        fun hc => absurd rfl hc⟩
    | cons c rest =>
      have e2 : durTileF (n + 1) (c :: rest)
          = match durToken (c :: rest) with
            | some (v, r2) => (durTileF n r2).map fun x => qAdd v x
            | none => none := rfl
      rw [e2] at h
      cases hd : durToken (c :: rest) with
      | none =>
        rw [hd] at h
        exact absurd h (by simp)
      | some vr =>
        obtain ⟨v, r2⟩ := vr
        rw [hd] at h
        simp only [] at h
        cases ht : durTileF n r2 with
        | none =>
          rw [ht] at h
          have h2 : (none : Option Rat) = some q := h
          exact Option.noConfusion h2
        | some t0 =>
          rw [ht] at h
          have h2 : (some (qAdd v t0) : Option Rat) = some q := h
          injection h2 with h3
          obtain ⟨tok, hvalid, hcs, hvv, -⟩ := durToken_sound hd
          obtain ⟨ts, hcov, -⟩ := ih ht
          obtain ⟨hts, hflat, hsum⟩ := (coverSum_def ts r2 t0).mp hcov
          refine ⟨tok :: ts, ⟨?_, ?_, ?_⟩, fun _ => List.cons_ne_nil _ _⟩
          · intro t htm
            rcases List.mem_cons.mp htm with rfl | hm
            · exact hvalid
            · exact hts t hm
          · show tok.text ++ (ts.map DTok.text).flatten = c :: rest
            rw [hflat, ← hcs]
          · show qAdd tok.val (sumVals ts) = q
            rw [hsum, ← hvv]
            exact h3

/-! #### Completeness: every exact cover is found by the greedy scan -/

theorem numLex_exact {d1 : List Char} {frac : Option (List Char)} {c0 : Char}
    {rest0 : List Char}
    (h1 : d1 ≠ []) (hd1 : ∀ c ∈ d1, c.isDigit = true)
    (hfrac : ∀ d, frac = some d → d ≠ [] ∧ ∀ c ∈ d, c.isDigit = true)
    (hc0d : c0.isDigit = false) (hc0p : ¬ c0 = '.') :
    numLex (d1 ++ (fracPart frac ++ (c0 :: rest0)))
      = some (numValOf d1 frac, c0 :: rest0) := by
  have hie : ¬ d1.isEmpty = true := by
    cases d1 with
    | nil => exact absurd rfl h1
    | cons a l => exact fun hh => Bool.noConfusion hh
  cases frac with
  | none =>
    rw [fracPart_none, List.nil_append]
    have htw : (d1 ++ c0 :: rest0).takeWhile Char.isDigit = d1 := by
      rw [takeWhile_all_append hd1, takeWhile_nil_of_false hc0d, List.append_nil]
    have hdw : (d1 ++ c0 :: rest0).dropWhile Char.isDigit = c0 :: rest0 := by
      rw [dropWhile_all_append hd1, dropWhile_id_of_false hc0d]
    simp only [numLex]
    rw [htw, hdw, if_neg hie]
    simp only []
    rw [if_neg hc0p]
    rfl
  | some d =>
    obtain ⟨hdne, hdall⟩ := hfrac d rfl
    rw [fracPart_some, List.cons_append]
    have htw : (d1 ++ '.' :: (d ++ c0 :: rest0)).takeWhile Char.isDigit = d1 := by
      rw [takeWhile_all_append hd1, takeWhile_nil_of_false (by decide), List.append_nil]
    have hdw : (d1 ++ '.' :: (d ++ c0 :: rest0)).dropWhile Char.isDigit
        = '.' :: (d ++ c0 :: rest0) := by
      rw [dropWhile_all_append hd1, dropWhile_id_of_false (by decide)]
    have htw2 : (d ++ c0 :: rest0).takeWhile Char.isDigit = d := by
      rw [takeWhile_all_append hdall, takeWhile_nil_of_false hc0d, List.append_nil]
    have hdw2 : (d ++ c0 :: rest0).dropWhile Char.isDigit = c0 :: rest0 := by
      rw [dropWhile_all_append hdall, dropWhile_id_of_false hc0d]
    have hie2 : ¬ d.isEmpty = true := by
      cases d with
      | nil => exact absurd rfl hdne
      | cons a l => exact fun hh => Bool.noConfusion hh
    simp only [numLex]
    rw [htw, hdw, if_neg hie]
    simp only []
    rw [htw2, if_pos trivial, if_neg hie2, hdw2]
    rfl

theorem listStarts_self {p t : List Char} : listStarts p (p ++ t) = true :=
  listStarts_iff.mpr ⟨t, rfl⟩

theorem unitLex_cons_pos (u0 : String) (f0 : Rat) (us : List (String × Rat))
    (t : List Char) : unitLex ((u0, f0) :: us) (u0.data ++ t) = some (f0, t) := by
  show (if listStarts u0.data (u0.data ++ t) then
      some (f0, (u0.data ++ t).drop u0.data.length) else unitLex us (u0.data ++ t))
    = some (f0, t)
  rw [if_pos listStarts_self, List.drop_left]

theorem unitLex_cons_neg {u0 : String} {cs : List Char} (f0 : Rat)
    (us : List (String × Rat)) (h : listStarts u0.data cs = false) :
    unitLex ((u0, f0) :: us) cs = unitLex us cs := by
  show (if listStarts u0.data cs then
      some (f0, cs.drop u0.data.length) else unitLex us cs) = unitLex us cs
  rw [h]
  rfl

/-- Every duration unit starts with a character that is neither a digit
nor a dot. -/
theorem unit_head {u : String} (h : u ∈ durUnitNames) :
    ∃ c cr, u.data = c :: cr ∧ c.isDigit = false ∧ ¬ c = '.' := by
  have hn : durUnitNames = ["ns", "us", "µs", "ms", "s", "m", "h", "d", "w"] := rfl
  rw [hn] at h
  simp only [List.mem_cons, List.not_mem_nil, or_false] at h
  rcases h with rfl | rfl | rfl | rfl | rfl | rfl | rfl | rfl | rfl
  · exact ⟨'n', ['s'], rfl, by decide, by decide⟩
  · exact ⟨'u', ['s'], rfl, by decide, by decide⟩
  · exact ⟨'µ', ['s'], rfl, by decide, by decide⟩
  · exact ⟨'m', ['s'], rfl, by decide, by decide⟩
  · exact ⟨'s', [], rfl, by decide, by decide⟩
  · exact ⟨'m', [], rfl, by decide, by decide⟩
  · exact ⟨'h', [], rfl, by decide, by decide⟩
  · exact ⟨'d', [], rfl, by decide, by decide⟩
  · exact ⟨'w', [], rfl, by decide, by decide⟩

/-- When what follows the unit is empty or digit-headed (as after any
token of a cover), the alternation reads back exactly that unit: the only
overlap in `ns|us|µs|ms|s|m|h|d|w` is `ms` before `m`, and `ms` cannot
fire on `m` followed by a digit or the end. -/
theorem unitLex_exact {u : String} (hu : u ∈ durUnitNames) {rest : List Char}
    (hrest : rest = [] ∨ ∃ c cs, rest = c :: cs ∧ c.isDigit = true) :
    unitLex durUnits (u.data ++ rest) = some ((lookupRat durUnits u).getD 0, rest) := by
  have hn : durUnitNames = ["ns", "us", "µs", "ms", "s", "m", "h", "d", "w"] := rfl
  rw [hn] at hu
  simp only [List.mem_cons, List.not_mem_nil, or_false] at hu
  rcases hrest with rfl | ⟨c, cs, rfl, hcd⟩
  · rcases hu with rfl | rfl | rfl | rfl | rfl | rfl | rfl | rfl | rfl <;> rfl
  · have hms : ∀ tl : List (String × Rat),
        unitLex (("ms", Rat.divInt 1 1000) :: tl) ('m' :: c :: cs) = unitLex tl ('m' :: c :: cs) := by
      intro tl
      refine unitLex_cons_neg _ _ ?_
      cases hb : listStarts (String.data "ms") ('m' :: c :: cs) with
      | false => rfl
      | true =>
        obtain ⟨t, ht⟩ := listStarts_iff.mp hb
        have ht2 : 'm' :: c :: cs = 'm' :: 's' :: t := ht
        injection ht2 with h1 h2
        injection h2 with hc h3
        rw [hc] at hcd
        exact absurd hcd (by decide)
    rcases hu with rfl | rfl | rfl | rfl | rfl | rfl | rfl | rfl | rfl
    · rfl
    · rfl
    · rfl
    · rfl
    · rfl
    · show unitLex durUnits ('m' :: c :: cs) = some (60, c :: cs)
      have e1 : unitLex durUnits ('m' :: c :: cs)
          = unitLex [("ms", Rat.divInt 1 1000), ("s", 1), ("m", 60), ("h", 3600),
              ("d", 86400), ("w", 604800)] ('m' :: c :: cs) := rfl
      rw [e1, hms]
      rfl
    · rfl
    · rfl
    · rfl

theorem durToken_complete {t : DTok} (hv : t.Valid) {rest : List Char}
    (hrest : rest = [] ∨ ∃ c cs, rest = c :: cs ∧ c.isDigit = true) :
    durToken (t.text ++ rest) = some (t.val, rest) := by
  obtain ⟨hne, hd1, hfrac, hu⟩ := hv
  obtain ⟨cu, cru, hud, hcud, hcup⟩ := unit_head hu
  have hassoc : t.text ++ rest
      = t.numInt ++ (fracPart t.numFrac ++ (cu :: (cru ++ rest))) := by
    rw [DTok.text, hud]
    simp [List.append_assoc]
  rw [hassoc]
  unfold durToken
  rw [numLex_exact hne hd1 hfrac hcud hcup]
  simp only []
  have hback : cu :: (cru ++ rest) = t.unit.data ++ rest := by
    rw [hud]
    rfl
  rw [hback, unitLex_exact hu hrest]
  rfl

/-- The text of a valid token list is empty or starts with a digit (the
first digit of the first token). -/
theorem restHeadDigit {ts : List DTok} (h : ∀ t ∈ ts, t.Valid) :
    (ts.map DTok.text).flatten = [] ∨
      ∃ c cs, (ts.map DTok.text).flatten = c :: cs ∧ c.isDigit = true := by
  cases ts with
  | nil => exact Or.inl rfl
  | cons t tl =>
    right
    obtain ⟨hne, hd1, -, -⟩ := h t (List.mem_cons_self t tl)
    cases hi : t.numInt with
    | nil => exact absurd hi hne
    | cons c0 cr =>
      refine ⟨c0, ((cr ++ fracPart t.numFrac) ++ t.unit.data) ++ (tl.map DTok.text).flatten,
        ?_, hd1 c0 (by rw [hi]; exact List.mem_cons_self c0 cr)⟩
      show t.text ++ (tl.map DTok.text).flatten = _
      rw [DTok.text, hi]
      rfl

theorem durTileF_complete :
    ∀ (ts : List DTok), (∀ t ∈ ts, t.Valid) →
      ∀ fuel : Nat, ((ts.map DTok.text).flatten).length ≤ fuel →
        durTileF fuel ((ts.map DTok.text).flatten) = some (sumVals ts) := by
  intro ts
  induction ts with
  | nil => intro _ fuel _; exact durTileF_nil fuel
  | cons t tl ih =>
    intro hv fuel hlen
    have hvt := hv t (List.mem_cons_self t tl)
    have hvtl : ∀ x ∈ tl, x.Valid := fun x hx => hv x (List.mem_cons_of_mem t hx)
    have hflat : ((t :: tl).map DTok.text).flatten
        = t.text ++ (tl.map DTok.text).flatten := rfl
    have hne : t.numInt ≠ [] := hvt.1
    cases hti : t.numInt with
    | nil => exact absurd hti hne
    | cons c0 cr =>
      have e1 : t.text ++ (tl.map DTok.text).flatten
          = c0 :: (((cr ++ fracPart t.numFrac) ++ t.unit.data) ++ (tl.map DTok.text).flatten) := by
        rw [DTok.text, hti]
        rfl
      have hlen1 : 1 ≤ t.text.length := by
        rw [DTok.text, hti]
        simp only [List.length_append, List.length_cons]
        omega
      cases fuel with
      | zero =>
        rw [hflat, List.length_append] at hlen
        omega
      | succ n =>
        have hlen2 : ((tl.map DTok.text).flatten).length ≤ n := by
          rw [hflat, List.length_append] at hlen
          omega
        rw [hflat, e1]
        have e2 : durTileF (n + 1)
            (c0 :: (((cr ++ fracPart t.numFrac) ++ t.unit.data) ++ (tl.map DTok.text).flatten))
            = match durToken
                (c0 :: (((cr ++ fracPart t.numFrac) ++ t.unit.data) ++ (tl.map DTok.text).flatten)) with
              | some (v, r2) => (durTileF n r2).map fun x => qAdd v x
              | none => none := rfl
        rw [e2, ← e1, durToken_complete hvt (restHeadDigit hvtl)]
        simp only []
        rw [ih hvtl n hlen2]
        rfl

/-- C2 (amended): for every nonempty string, `_parse_duration_to_seconds`
matches iff one or more contiguous `<number><unit>` tokens exactly cover
the string start to end, and then returns the sum of the token values in
seconds; strings with internal whitespace or trailing non-duration text
are a no-match, so under default options `normalize` maps "1h30m15s" to
5415.0 and leaves "1h 30m" and "1h30mX" unchanged.  Contrary to the
claim, the zero-token case is not a no-match: the empty string (the only
string coverable by zero tokens) is matched, with result 0.0. -/
theorem C2_duration_tiling :
    (∀ (s : String) (q : Rat), s.data ≠ [] →
      (parseDurationToSeconds s = some q ↔
        ∃ ts : List DTok, ts ≠ [] ∧ CoverSum ts s.data q)) ∧
    parseDurationToSeconds "" = some 0 ∧
    normalize noEnv id defaultOpts (.str "1h30m15s") = .ok (.float 5415) ∧
    normalize noEnv id defaultOpts (.str "1h 30m") = .ok (.str "1h 30m") ∧
    normalize noEnv id defaultOpts (.str "1h30mX") = .ok (.str "1h30mX") := by
  refine ⟨?_, rfl, rfl, rfl, rfl⟩
  intro s q hs
  constructor
  · intro h
    obtain ⟨ts, hcov, hne⟩ := durTileF_sound s.data.length h
    exact ⟨ts, hne hs, hcov⟩
  · rintro ⟨ts, hne, hcov⟩
    obtain ⟨hvalid, hflat, hsum⟩ := (coverSum_def ts s.data q).mp hcov
    show durTileF s.data.length s.data = some q
    rw [← hflat, ← hsum]
    exact durTileF_complete ts hvalid _ (Nat.le_refl _)

/-- C2 counterexample: the duration scan matches the empty string with
zero tokens and returns 0.0, while no nonempty token list covers the
empty string. -/
theorem C2_counterexample :
    parseDurationToSeconds "" = some 0 ∧
    ¬ ∃ ts : List DTok, ts ≠ [] ∧ CoverSum ts ("" : String).data 0 := by
  refine ⟨rfl, ?_⟩
  rintro ⟨ts, hne, hcov⟩
  obtain ⟨hvalid, hflat, -⟩ := (coverSum_def ts _ 0).mp hcov
  cases ts with
  | nil => exact hne rfl
  | cons t tl =>
    obtain ⟨h1, -, -, -⟩ := hvalid t (List.mem_cons_self t tl)
    cases hi : t.numInt with
    | nil => exact h1 hi
    | cons c cr =>
      have h2 : t.text ++ (tl.map DTok.text).flatten = ([] : List Char) := hflat
      rw [DTok.text, hi] at h2
      simp at h2

theorem C2_witness :
    ∃ ts : List DTok, ts ≠ [] ∧ CoverSum ts ("1h" : String).data 3600 :=
  (C2_duration_tiling.1 "1h" 3600 (by decide)).mp rfl

end Castenv
